import Mathlib

/-!
# Verification of the vector-space retrieval pipeline

A shallow embedding, in Lean 4, of the algorithmic core of the two
assignment variants (`Trabalho_03` and `Trabalho_04`) of a classic
vector-space information-retrieval system: text normalization
(`Tools.sanitize`), inverted-list sorting (`sort_words_dict`), TF-IDF
weighting (`TFIDF.get_tf_idf`, `create_term_document_matrix`), cosine
similarity (`TFIDF.get_document_similarity_tf_idf`) and the two search
engines' per-query ranking loops.

Strings are embedded as `List Char`.  Floating-point weights are embedded
as real numbers (`ℝ`) where the logarithm matters, and generically over a
linear ordered field where only ordered-field arithmetic matters, so that
witnesses can be evaluated over `ℚ`.
-/

namespace BMT

/-- The Python regular-expression whitespace class `\s`:
space, tab, newline, carriage return, vertical tab, form feed. -/
def pyIsWs (c : Char) : Bool :=
  c = ' ' || c = '\t' || c = '\n' || c = '\r' || c = '\x0b' || c = '\x0c'

/-- `re.sub(r"\s\s+", " ", s)`: every maximal run of two or more whitespace
characters is replaced by a single space; an isolated whitespace character
is left unchanged. -/
def collapseWs : List Char → List Char
  | [] => []
  | c :: cs =>
    if pyIsWs c then
      match cs with
      | [] => [c]
      | d :: ds =>
        if pyIsWs d then ' ' :: collapseWs (ds.dropWhile pyIsWs)
        else c :: collapseWs (d :: ds)
    else c :: collapseWs cs
termination_by s => s.length
decreasing_by
  all_goals simp
  all_goals exact lt_of_le_of_lt (List.dropWhile_sublist pyIsWs).length_le (by omega)

/-- Python `str.strip()`: drop leading and trailing whitespace. -/
def pyStrip (s : List Char) : List Char :=
  ((s.dropWhile pyIsWs).reverse.dropWhile pyIsWs).reverse

/-- Python `str.split(" ")`: split on every single space, keeping empty
fields (`"a  b".split(" ") == ["a", "", "b"]`, `"".split(" ") == [""]`). -/
def splitSpace : List Char → List (List Char)
  | [] => [[]]
  | c :: cs =>
    if c = ' ' then [] :: splitSpace cs
    else
      match splitSpace cs with
      | t :: ts => (c :: t) :: ts
      | [] => [[c]]

/-- Splitter on an arbitrary separator class: the list of maximal nonempty
runs of non-separator characters.  `splitP pyIsWs` is Python `str.split()`
with no argument. -/
def splitP (sep : Char → Bool) : List Char → List (List Char)
  | [] => []
  | c :: cs =>
    if sep c then splitP sep cs
    else (c :: cs.takeWhile (fun d => !sep d)) ::
      splitP sep (cs.dropWhile (fun d => !sep d))
termination_by s => s.length
decreasing_by
  all_goals simp
  all_goals exact lt_of_le_of_lt (List.dropWhile_sublist (fun d => !sep d)).length_le (by omega)

/-- Python `str.split()` (no separator): maximal nonempty runs of
non-whitespace characters. -/
def splitWs : List Char → List (List Char) :=
  splitP pyIsWs

/-- Python `" ".join(ts)`. -/
def joinSpace : List (List Char) → List Char
  | [] => []
  | [t] => t
  | t :: ts => t ++ ' ' :: joinSpace ts

/-- `string.replace("\n", " ")`. -/
def nlToSpace (s : List Char) : List Char :=
  s.map (fun c => if c = '\n' then ' ' else c)

/-- Accent table used to model the external `unidecode` library together
with Python `str.upper` on the accented characters the model supports:
(lower-case form, upper-case form, ASCII fold). -/
def accentTable : List (Char × Char × Char) :=
  [('á', 'Á', 'A'), ('à', 'À', 'A'), ('â', 'Â', 'A'), ('ã', 'Ã', 'A'),
   ('é', 'É', 'E'), ('ê', 'Ê', 'E'), ('í', 'Í', 'I'), ('ó', 'Ó', 'O'),
   ('ô', 'Ô', 'O'), ('õ', 'Õ', 'O'), ('ú', 'Ú', 'U'), ('ç', 'Ç', 'C')]

/-- Python `str.upper`, character by character, modelled on ASCII plus the
accent table: ASCII lower-case letters are shifted to upper case, the
accented lower-case characters of `accentTable` map to their upper-case
forms, and every other character is unchanged. -/
def pyUpper (c : Char) : Char :=
  if 97 ≤ c.toNat ∧ c.toNat ≤ 122 then Char.ofNat (c.toNat - 32)
  else
    match accentTable.find? (fun p => p.1 = c) with
    | some p => p.2.1
    | none => c

/-- Python `str.lower`, character by character, modelled on ASCII plus the
accent table (the inverse direction of `pyUpper`). -/
def pyLower (c : Char) : Char :=
  if 65 ≤ c.toNat ∧ c.toNat ≤ 90 then Char.ofNat (c.toNat + 32)
  else
    match accentTable.find? (fun p => p.2.1 = c) with
    | some p => p.1
    | none => c

/-- Modelled from the spec: the external `unidecode` accent-folding
library (not part of the repository).  Identity on ASCII; the accented
characters of `accentTable` fold to the corresponding ASCII letter
(upper-case input keeps upper case, lower-case input keeps lower case via
`pyLower`); any other non-ASCII character is dropped, as `unidecode` drops
characters it cannot transliterate. -/
def accentFold (c : Char) : List Char :=
  if c.toNat < 128 then [c]
  else
    match accentTable.find? (fun p => p.1 = c ∨ p.2.1 = c) with
    | some p => if p.1 = c then [pyLower p.2.2] else [p.2.2]
    | none => []

/-- `unidecode` applied to a whole string. -/
def unidecodeStr (s : List Char) : List Char :=
  s.flatMap accentFold

/-- The apostrophe character, `'`. -/
def squote : Char := Char.ofNat 39

/-- The punctuation class of `Trabalho_03`'s `Tools.sanitize`:
`[.,;:?!\[\]\-\"'_()%]`. -/
def isPunct03 (c : Char) : Bool :=
  c = '.' || c = ',' || c = ';' || c = ':' || c = '?' || c = '!' ||
  c = '[' || c = ']' || c = '-' || c = '"' || c = squote || c = '_' ||
  c = '(' || c = ')' || c = '%'

/-- The punctuation class of `Trabalho_04`'s `Tools.sanitize`:
`[.,;:?!\\\/\+><=\[\]\-\"'_()%]`. -/
def isPunct04 (c : Char) : Bool :=
  isPunct03 c || c = '\\' || c = '/' || c = '+' || c = '>' || c = '<' ||
  c = '='

/-- `re.sub(punctuationClass, " ", s)`. -/
def punctToSpace (isPunct : Char → Bool) (s : List Char) : List Char :=
  s.map (fun c => if isPunct c then ' ' else c)

/-- The cleaning expression shared by both variants of `Tools.sanitize`
(parametrised by the punctuation class):
`re.sub(punct, " ", re.sub(r"\s\s+", " ", unidecode(s.replace("\n", " ").upper())))`. -/
def baseClean (isPunct : Char → Bool) (s : List Char) : List Char :=
  punctToSpace isPunct (collapseWs (unidecodeStr ((nlToSpace s).map pyUpper)))

/-- Python nonempty-and-all-digits test `str.isdigit` (on the ASCII
strings this pipeline produces). -/
def pyIsDigitTok (w : List Char) : Bool :=
  !w.isEmpty && w.all Char.isDigit

/-- Python nonempty-and-all-alphabetic test `str.isalpha` (on the ASCII
strings this pipeline produces). -/
def pyIsAlphaTok (w : List Char) : Bool :=
  !w.isEmpty && w.all Char.isAlpha

/-- The `for stopword in stopwords: text = list(filter((stopword).__ne__, text))`
loop shared by both `sanitize` variants. -/
def dropStopwords (stopwords : List (List Char)) (text : List (List Char)) :
    List (List Char) :=
  stopwords.foldl (fun acc sw => acc.filter (fun w => w ≠ sw)) text

/-- `Tools.sanitize` of `Trabalho_03` (no stemmer flag): clean the string
and, when `remove_stopwords` is set, split on single spaces, drop
stopwords, drop all-digit tokens, drop tokens of length < 3, rejoin with
single spaces, strip and collapse whitespace. -/
def sanitize03 (stopwords : List (List Char)) (remove_stopwords : Bool)
    (string : List Char) : List Char :=
  if remove_stopwords then
    let text := splitSpace (pyStrip (baseClean isPunct03 string))
    let text := dropStopwords stopwords text
    let text := text.filter (fun w => !pyIsDigitTok w)
    let text := text.filter (fun w => 2 < w.length)
    collapseWs (pyStrip (joinSpace text))
  else
    pyStrip (baseClean isPunct03 string)

/-- `Tools.sanitize` of `Trabalho_04`.  Same shape as `sanitize03` with
the larger punctuation class and an `isalpha` filter in place of the
digit filter; the Porter stemmer (whose module is external to the core
sources) is passed in as the function `stem`, applied to each
whitespace-separated word after lower-casing, with the result re-raised
to upper case. -/
def sanitize04 (stem : List Char → List Char) (stopwords : List (List Char))
    (remove_stopwords use_stemmer : Bool) (string : List Char) : List Char :=
  if ¬remove_stopwords ∧ ¬use_stemmer then
    pyStrip (baseClean isPunct04 string)
  else
    let text := string
    let text :=
      if remove_stopwords then
        let t := splitSpace (pyStrip (baseClean isPunct04 string))
        let t := dropStopwords stopwords t
        let t := t.filter (fun w => pyIsAlphaTok w)
        let t := t.filter (fun w => 2 < w.length)
        collapseWs (pyStrip (joinSpace t))
      else text
    if use_stemmer then
      joinSpace ((splitWs text).map (fun w => ((stem (w.map pyLower)).map pyUpper)))
    else text

/-- The token sequence carried by a sanitized string: its
whitespace-separated words (how every consumer of `Tools.sanitize`
tokenizes its result, via Python `str.split()`). -/
def wsTokens (s : List Char) : List (List Char) :=
  splitWs s

/-- Inputs whose whitespace characters are limited to plain spaces and
newlines (the whitespace that actually occurs in the XML-extracted
corpus text); a lone tab, carriage return, vertical tab or form feed is
excluded. -/
def wsLimited (s : List Char) : Prop :=
  ∀ c ∈ s, pyIsWs c = true → c = ' ' ∨ c = '\n'

/-- Stable descending insertion by key: `x` is placed before the first
element whose key is `≤ key x`, so it lands after every strictly greater
key and before every equal key it was inserted into. -/
def insDesc {β γ : Type} [LinearOrder γ] [∀ x y : γ, Decidable (x ≤ y)]
    (key : β → γ) (x : β) : List β → List β
  | [] => [x]
  | y :: ys => if key y ≤ key x then x :: y :: ys else y :: insDesc key x ys

/-- Stable descending sort by key.  This models both Python's
`sorted(..., key=..., reverse=True)` (whose Timsort is guaranteed stable,
with `reverse=True` flipping comparisons but preserving the order of
equal keys) and, as a modelling choice documented here, pandas
`sort_values(ascending=False)` (whose default quicksort leaves the order
of equal keys unspecified; the spec's §9 note picks the stable policy). -/
def sortDesc {β γ : Type} [LinearOrder γ] [∀ x y : γ, Decidable (x ≤ y)]
    (key : β → γ) : List β → List β
  | [] => []
  | x :: xs => insDesc key x (sortDesc key xs)

/-- Ascending insertion for natural numbers. -/
def insNatAsc (x : ℕ) : List ℕ → List ℕ
  | [] => [x]
  | y :: ys => if x ≤ y then x :: y :: ys else y :: insNatAsc x ys

/-- Ascending sort for natural numbers: Python `sorted` on the
document-id set. -/
def sortNatAsc : List ℕ → List ℕ
  | [] => []
  | x :: xs => insNatAsc x (sortNatAsc xs)

/-- `ILGTools.sort_words_dict` (`Trabalho_04`) and the identical sorting
expression inlined in `InverseListGenerator.__run` (`Trabalho_03`):
`sorted(words_dict, key=lambda x: len(words_dict[x]), reverse=True)`,
rebuilding the mapping in that key order. -/
def sort_words_dict (words_dict : List (List Char × List ℕ)) :
    List (List Char × List ℕ) :=
  sortDesc (fun r => r.2.length) words_dict

/-- One step of Python `dict` construction: a repeated key keeps its first
position but takes the last value; a fresh key is appended. -/
def insertRow (acc : List (List Char × List ℕ)) (r : List Char × List ℕ) :
    List (List Char × List ℕ) :=
  if acc.any (fun x => x.1 = r.1) then
    acc.map (fun x => if x.1 = r.1 then (x.1, r.2) else x)
  else acc ++ [r]

/-- The `term_count = {i: j for _, (i, j) in dataframe.iterrows()}`
dictionary build shared by `IndexTools.create_term_document_matrix`
(`Trabalho_04`) and `Indexer.__run` (`Trabalho_03`). -/
def dictOfRows (rows : List (List Char × List ℕ)) :
    List (List Char × List ℕ) :=
  rows.foldl insertRow []

/-- The sorted set of all document ids occurring in any posting list
(`all_documents = sorted(set-union of the RecordNumbers columns)`). -/
def allDocuments (df : List (List Char × List ℕ)) : List ℕ :=
  sortNatAsc ((df.foldl (fun acc r => acc ++ r.2) []).dedup)

/-- The term × document matrix build shared by
`IndexTools.create_term_document_matrix` (`Trabalho_04`) and
`Indexer.__run` (`Trabalho_03`), parametrised by the variant's
`TFIDF.get_tf_idf`: one row per term of the postings dictionary, one
cell per document of the sorted universe, each cell
`tfIdf(count of doc in postings, total_docs, distinct docs in postings)`
(`np.unique(...)` length is the distinct count, `list.count(doc)` the
term frequency). -/
def termDocumentMatrix (tfIdf : ℕ → ℕ → ℕ → ℝ)
    (df : List (List Char × List ℕ)) : List (List Char × List (ℕ × ℝ)) :=
  let all_documents := allDocuments df
  let total_docs := all_documents.length
  (dictOfRows df).map (fun r =>
    (r.1, all_documents.map (fun doc =>
      (doc, tfIdf (r.2.count doc) total_docs r.2.dedup.length))))

end BMT

namespace Trab03

/-- `TFIDF.get_tf_idf` of `Trabalho_03`:
`0` when `frequency == 0`, else
`1 + np.log(frequency) * np.log(total_docs / docs_with_term)`
(the additive variant of the formula). -/
noncomputable def get_tf_idf (frequency total_docs docs_with_term : ℕ) : ℝ :=
  if frequency = 0 then 0
  else 1 + Real.log frequency *
    Real.log ((total_docs : ℝ) / (docs_with_term : ℝ))

/-- The term × document matrix built by `Indexer.__run` of `Trabalho_03`. -/
noncomputable def create_term_document_matrix
    (df : List (List Char × List ℕ)) : List (List Char × List (ℕ × ℝ)) :=
  BMT.termDocumentMatrix get_tf_idf df

end Trab03

namespace Trab04

/-- `TFIDF.get_tf_idf` of `Trabalho_04`:
`0` when `frequency == 0`, else
`(1 + np.log(frequency)) * np.log(total_docs / docs_with_term)`
(the multiplicative variant of the formula). -/
noncomputable def get_tf_idf (frequency total_docs docs_with_term : ℕ) : ℝ :=
  if frequency = 0 then 0
  else (1 + Real.log frequency) *
    Real.log ((total_docs : ℝ) / (docs_with_term : ℝ))

/-- `IndexTools.create_term_document_matrix` of `Trabalho_04`. -/
noncomputable def create_term_document_matrix
    (df : List (List Char × List ℕ)) : List (List Char × List (ℕ × ℝ)) :=
  BMT.termDocumentMatrix get_tf_idf df

/-- The loaded term × document model of the `Trabalho_04` search engine:
the document-id columns and, per term, the row of weights aligned with
those columns. -/
structure Model (α : Type) where
  docs : List ℕ
  rows : List (List Char × List α)

/-- `model.loc[model["Term"] == term][str(doc)].iloc[0]`: the first row
whose `Term` equals `term`, at the column `doc`; `none` when either the
row (IndexError) or the column (KeyError) is missing. -/
def lookupDocWeight {α : Type} (m : Model α) (term : List Char) (doc : ℕ) :
    Option α :=
  match m.rows.find? (fun r => r.1 = term) with
  | none => none
  | some r =>
    match (m.docs.zip r.2).find? (fun c => c.1 = doc) with
    | none => none
    | some c => some c.2

/-- `query_index.loc[query_index["Term"] == term].iloc[0, 1]`: the
query-side weight of `term`, `none` when no row matches (IndexError). -/
def lookupQueryWeight {α : Type} (query_index : List (List Char × α))
    (term : List Char) : Option α :=
  match query_index.find? (fun r => r.1 = term) with
  | none => none
  | some r => some r.2

/-- The accumulator loop of `TFIDF.get_document_similarity_tf_idf`: fold
over the sanitized query terms, and for each term whose query weight and
document weight both resolve, add `qw*dw` to the scalar product, `qw²` to
the query-norm accumulator and `dw²` to the document-norm accumulator; a
term failing either lookup is skipped entirely (`except: continue`). -/
def similarity_fold {α : Type} [LinearOrderedField α] (model : Model α)
    (query_index : List (List Char × α)) (doc_number : ℕ)
    (sanitized_query : List (List Char)) : α × α × α :=
  sanitized_query.foldl (fun acc term =>
    match lookupQueryWeight query_index term,
      lookupDocWeight model term doc_number with
    | some qw, some dw => (acc.1 + qw * dw, acc.2.1 + qw ^ 2, acc.2.2 + dw ^ 2)
    | _, _ => acc) (0, 0, 0)

/-- `TFIDF.get_document_similarity_tf_idf` of `Trabalho_04`,
parametrised by the square-root function so the arithmetic can be
instantiated at `ℝ` (with `Real.sqrt`) for the weight-level claims and at
`ℚ` for executable witnesses:
`length = sqrt(length_q) * sqrt(length_w)`;
`scalar_prod / length` if `length > 0`, else `0`. -/
def get_document_similarity_tf_idf {α : Type} [LinearOrderedField α]
    [∀ x y : α, Decidable (x < y)]
    (sqrtFn : α → α) (model : Model α) (query_index : List (List Char × α))
    (doc_number : ℕ) (sanitized_query : List (List Char)) : α :=
  let a := similarity_fold model query_index doc_number sanitized_query
  let length := sqrtFn a.2.1 * sqrtFn a.2.2
  if 0 < length then a.1 / length else 0

/-- The real-number instantiation of
`TFIDF.get_document_similarity_tf_idf` with the true square root. -/
noncomputable def get_document_similarity_tf_idf_R (model : Model ℝ)
    (query_index : List (List Char × ℝ)) (doc_number : ℕ)
    (sanitized_query : List (List Char)) : ℝ :=
  get_document_similarity_tf_idf Real.sqrt model query_index doc_number
    sanitized_query

/-- The positive-similarity rows of one query of `SearchEngine.__run` of
`Trabalho_04`: the similarity of every document column of the model,
filtered to `query_results[1] > 0`. -/
def positive_similarities {α : Type} [LinearOrderedField α]
    [∀ x y : α, Decidable (x < y)] (sqrtFn : α → α)
    (m : Model α) (query_index : List (List Char × α))
    (sanitized_query : List (List Char)) : List (ℕ × α) :=
  (m.docs.map (fun d =>
    (d, get_document_similarity_tf_idf sqrtFn m query_index d
      sanitized_query))).filter (fun p => 0 < p.2)

/-- The per-query body of `SearchEngine.__run` of `Trabalho_04`: keep the
rows with similarity `> 0`, sort by similarity descending
(`sort_values`, modelled as the stable `sortDesc`) and truncate with
`.head(40)`. -/
def run_query {α : Type} [LinearOrderedField α]
    [∀ x y : α, Decidable (x < y)] [∀ x y : α, Decidable (x ≤ y)]
    (sqrtFn : α → α)
    (m : Model α) (query_index : List (List Char × α))
    (sanitized_query : List (List Char)) : List (ℕ × α) :=
  (BMT.sortDesc (fun p => p.2)
    (positive_similarities sqrtFn m query_index sanitized_query)).take 40

end Trab04

namespace Trab03

/-- The score accumulation of `SearchEngine.search` of `Trabalho_03`,
restricted to one document column: for each query word whose term row
exists in the model, add that row's weight at the document's column
(`score.add(term.iloc[0, 1:], fill_value=0)`); a word with no matching
row is skipped (`except IndexError: continue`). -/
def score_at {α : Type} [LinearOrderedField α] (m : Trab04.Model α)
    (words : List (List Char)) (d : ℕ) : α :=
  words.foldl (fun acc w =>
    match m.rows.find? (fun r => r.1 = w) with
    | none => acc
    | some r =>
      match (m.docs.zip r.2).find? (fun c => c.1 = d) with
      | none => acc
      | some c => acc + c.2) 0

/-- `SearchEngine.search` of `Trabalho_03`: the per-document summed
weights, filtered to the strictly positive scores and sorted descending
(`score.loc[score > 0].sort_values(ascending=False)`, modelled with the
stable `sortDesc`). -/
def search {α : Type} [LinearOrderedField α]
    [∀ x y : α, Decidable (x < y)] [∀ x y : α, Decidable (x ≤ y)]
    (m : Trab04.Model α)
    (words : List (List Char)) : List (ℕ × α) :=
  BMT.sortDesc (fun p => p.2)
    ((m.docs.map (fun d => (d, score_at m words d))).filter (fun p => 0 < p.2))

/-- The per-query body of `SearchEngine.__run` of `Trabalho_03`: the
ranked `(rank, document id, score)` triples of `search`, ranks counted
from 1, with no truncation. -/
def run_query {α : Type} [LinearOrderedField α]
    [∀ x y : α, Decidable (x < y)] [∀ x y : α, Decidable (x ≤ y)]
    (m : Trab04.Model α)
    (words : List (List Char)) : List (ℕ × ℕ × α) :=
  (List.enumFrom 1 (search m words)).map (fun p => (p.1, p.2.1, p.2.2))

end Trab03

namespace BMT

/-- The outcome of one `__run` invocation: the re-entry guard tripped, or
the run's work itself failed. -/
inductive RunError (ε : Type) : Type where
  | alreadyRun : RunError ε
  | failed : ε → RunError ε
deriving DecidableEq

/-- The run-once state of every builder/search-engine instance: the
`self.__has_run` boolean, `False` at construction. -/
structure EngineState : Type where
  has_run : Bool
deriving DecidableEq

/-- A fresh instance (`self.__has_run = False` in `__init__`). -/
def initEngine : EngineState := ⟨false⟩

/-- The `__run` skeleton shared by `Indexer`, `InverseListGenerator`,
`QueryProcessor` and both `SearchEngine`s: raise "already run" when the
guard is set; otherwise perform the run's work (abstracted as an
`Except` outcome) and set `self.__has_run = True` only at the very end,
so an exception partway through leaves the guard unset. -/
def runOnce {ε α : Type} (st : EngineState) (work : Except ε α) :
    EngineState × Except (RunError ε) α :=
  if st.has_run then (st, Except.error RunError.alreadyRun)
  else
    match work with
    | Except.ok a => (⟨true⟩, Except.ok a)
    | Except.error e => (st, Except.error (RunError.failed e))

/-- The normalization pipeline exactly as claim C5 words it: accent-fold
and upper-case, replace every character of the fixed punctuation set with
a space, collapse whitespace (subsumed by whitespace tokenization), then
drop stopword tokens, non-alphabetic tokens and tokens shorter than 3
characters, keeping the survivors in order. -/
def normalizeSpecC5 (stopwords : List (List Char)) (s : List Char) :
    List (List Char) :=
  (splitWs (punctToSpace isPunct04 (unidecodeStr (s.map pyUpper)))).filter
    (fun w => !stopwords.contains w && pyIsAlphaTok w && 2 < w.length)

/-- The query terms that contribute to the similarity of one document:
those whose lookup succeeds on both the query-index side and the
document-matrix side, in query order. -/
def contributingTerms {α : Type} (model : Trab04.Model α)
    (query_index : List (List Char × α)) (doc_number : ℕ)
    (sanitized_query : List (List Char)) : List (List Char) :=
  sanitized_query.filter (fun t =>
    (Trab04.lookupQueryWeight query_index t).isSome &&
    (Trab04.lookupDocWeight model t doc_number).isSome)

/-- The cosine computation exactly as claim C3 words it: restrict the
query terms to those found on both sides, sum `qw*dw` over them, take the
norms over that same term set, and divide only when the denominator is
strictly positive. -/
def cosineSpec {α : Type} [LinearOrderedField α]
    [∀ x y : α, Decidable (x < y)] (sqrtFn : α → α)
    (model : Trab04.Model α) (query_index : List (List Char × α))
    (doc_number : ℕ) (sanitized_query : List (List Char)) : α :=
  let ts := contributingTerms model query_index doc_number sanitized_query
  let qw := fun t => (Trab04.lookupQueryWeight query_index t).getD 0
  let dw := fun t => (Trab04.lookupDocWeight model t doc_number).getD 0
  let scalarProduct := (ts.map (fun t => qw t * dw t)).sum
  let queryNorm := sqrtFn ((ts.map (fun t => qw t ^ 2)).sum)
  let docNorm := sqrtFn ((ts.map (fun t => dw t ^ 2)).sum)
  if 0 < queryNorm * docNorm then scalarProduct / (queryNorm * docNorm)
  else 0

/-- The real-number instantiation of `cosineSpec`. -/
noncomputable def cosineSpecR (model : Trab04.Model ℝ)
    (query_index : List (List Char × ℝ)) (doc_number : ℕ)
    (sanitized_query : List (List Char)) : ℝ :=
  cosineSpec Real.sqrt model query_index doc_number sanitized_query

/-- The separator class of Python `str.split(" ")`: the single space. -/
def spaceSep (c : Char) : Bool := decide (c = ' ')

/-- The separator class obtained when the punctuation class `P` has been
replaced by spaces: whitespace or a character of `P`. -/
def wsOrPunct (P : Char → Bool) (c : Char) : Bool := pyIsWs c || P c

end BMT

section TFIDFClaims

/-- Claim C1 (amended).  The `Trabalho_04` engine's `buildMatrix` output
follows the multiplicative formula: every row of the matrix comes from a
posting list `L` of the postings dictionary, and its cell at document `d`
is `0` when `tf = L.count d` is zero and `(1 + ln tf) * ln(N / df)`
otherwise, with `N` the size of the document universe and `df` the number
of distinct documents in `L`.  The `Trabalho_03` engine, however, computes
the additive variant `1 + ln(tf) * ln(N / df)` for `tf ≠ 0`, so the
program does not use the multiplicative formula uniformly. -/
theorem claim_C1_tf_idf_formulas :
    (∀ (df : List (List Char × List ℕ)) (row : List Char × List (ℕ × ℝ)),
      row ∈ Trab04.create_term_document_matrix df →
      ∃ L : List ℕ, (row.1, L) ∈ BMT.dictOfRows df ∧
        row.2 = (BMT.allDocuments df).map (fun doc =>
          (doc, if L.count doc = 0 then (0 : ℝ)
            else (1 + Real.log (L.count doc)) *
              Real.log (((BMT.allDocuments df).length : ℝ) /
                (L.dedup.length : ℝ))))) ∧
    (∀ f N d : ℕ, f ≠ 0 →
      Trab03.get_tf_idf f N d =
        1 + Real.log f * Real.log ((N : ℝ) / (d : ℝ))) := by
  constructor
  · intro df row hrow
    rw [Trab04.create_term_document_matrix, BMT.termDocumentMatrix] at hrow
    simp only [List.mem_map] at hrow
    obtain ⟨r, hr, hrq⟩ := hrow
    refine ⟨r.2, ?_, ?_⟩
    · rw [← hrq]; exact hr
    · rw [← hrq]
      simp only [Trab04.get_tf_idf]
  · intro f N d hf
    rw [Trab03.get_tf_idf, if_neg hf]

/-- Claim C1, witness: the amended theorem applied to the one-term,
one-document postings dictionary (for the matrix half) and to
`tf = 2, N = 3, df = 1` (for the `Trabalho_03` half). -/
theorem claim_C1_tf_idf_formulas_witness :
    (∃ L : List ℕ,
      (("T").toList, L) ∈ BMT.dictOfRows [(("T").toList, [1])] ∧
      [(1, Trab04.get_tf_idf 1 1 1)] =
        (BMT.allDocuments [(("T").toList, [1])]).map (fun doc =>
          (doc, if L.count doc = 0 then (0 : ℝ)
            else (1 + Real.log (L.count doc)) *
              Real.log (((BMT.allDocuments [(("T").toList, [1])]).length : ℝ) /
                (L.dedup.length : ℝ))))) ∧
    Trab03.get_tf_idf 2 3 1 =
      1 + Real.log 2 * Real.log ((3 : ℝ) / (1 : ℝ)) := by
  constructor
  · have hmem : ((("T").toList, [(1, Trab04.get_tf_idf 1 1 1)]) :
        List Char × List (ℕ × ℝ)) ∈
        Trab04.create_term_document_matrix [(("T").toList, [1])] := by
      have hval : Trab04.create_term_document_matrix [(("T").toList, [1])] =
          [((("T").toList), [(1, Trab04.get_tf_idf 1 1 1)])] := rfl
      rw [hval]
      exact List.mem_singleton.mpr rfl
    exact claim_C1_tf_idf_formulas.1 [(("T").toList, [1])]
      (("T").toList, [(1, Trab04.get_tf_idf 1 1 1)]) hmem
  · have h2 : (2 : ℕ) ≠ 0 := by norm_num
    have h := claim_C1_tf_idf_formulas.2 2 3 1 h2
    exact_mod_cast h

/-- Claim C1, counterexample: in the `Trabalho_03` matrix of the postings
`T ↦ [1, 1], U ↦ [2]` (so `N = 2`, `tf(T,1) = 2`, `df(T) = 1`), the cell
`(T, 1)` is `Trab03.get_tf_idf 2 2 1`, and this value differs from the
multiplicative form `(1 + ln 2) · ln(2 / 1)` that the claim asserts the
engine applies uniformly. -/
theorem claim_C1_counterexample :
    Trab03.create_term_document_matrix
        [(("T").toList, [1, 1]), (("U").toList, [2])] =
      [(("T").toList, [(1, Trab03.get_tf_idf 2 2 1),
        (2, Trab03.get_tf_idf 0 2 1)]),
       (("U").toList, [(1, Trab03.get_tf_idf 0 2 1),
        (2, Trab03.get_tf_idf 1 2 1)])] ∧
    Trab03.get_tf_idf 2 2 1 ≠
      (1 + Real.log 2) * Real.log ((2 : ℝ) / (1 : ℝ)) := by
  constructor
  · rfl
  · rw [Trab03.get_tf_idf]
    norm_num
    intro h
    have hlog : Real.log 2 = 1 := by nlinarith [h]
    have h2 : Real.exp 1 = 2 := by
      rw [← hlog]; exact Real.exp_log (by norm_num)
    have := Real.exp_one_gt_d9
    rw [h2] at this
    norm_num at this

/-- Claim C2 (amended).  The TF-IDF zero law `weight = 0 ↔ tf = 0` holds
for the `Trabalho_03` additive formula on its whole declared domain
`1 ≤ df ≤ N`, but for the `Trabalho_04` multiplicative formula it needs
`df < N`: with `df = N` the factor `ln(N/df)` vanishes and the weight is
`0` even for `tf ≠ 0`. -/
theorem claim_C2_zero_law :
    (∀ f N d : ℕ, 1 ≤ d → d < N →
      (Trab04.get_tf_idf f N d = 0 ↔ f = 0)) ∧
    (∀ f N d : ℕ, 1 ≤ d → d ≤ N →
      (Trab03.get_tf_idf f N d = 0 ↔ f = 0)) := by
  constructor
  · intro f N d hd hdN
    rw [Trab04.get_tf_idf]
    rcases eq_or_ne f 0 with hf | hf
    · simp [hf]
    · rw [if_neg hf]
      simp only [hf, iff_false]
      have hf1 : (1 : ℝ) ≤ (f : ℝ) := by
        exact_mod_cast Nat.one_le_iff_ne_zero.mpr hf
      have h1 : (0 : ℝ) < 1 + Real.log f := by
        have := Real.log_nonneg hf1
        linarith
      have hd0 : (0 : ℝ) < (d : ℝ) := by exact_mod_cast hd
      have hquot : (1 : ℝ) < (N : ℝ) / (d : ℝ) := by
        rw [lt_div_iff₀ hd0]
        have : (d : ℝ) < (N : ℝ) := by exact_mod_cast hdN
        linarith
      have h2 : (0 : ℝ) < Real.log ((N : ℝ) / (d : ℝ)) :=
        Real.log_pos hquot
      exact ne_of_gt (mul_pos h1 h2)
  · intro f N d hd hdN
    rw [Trab03.get_tf_idf]
    rcases eq_or_ne f 0 with hf | hf
    · simp [hf]
    · rw [if_neg hf]
      simp only [hf, iff_false]
      have hf1 : (1 : ℝ) ≤ (f : ℝ) := by
        exact_mod_cast Nat.one_le_iff_ne_zero.mpr hf
      have hd0 : (0 : ℝ) < (d : ℝ) := by exact_mod_cast hd
      have hquot : (1 : ℝ) ≤ (N : ℝ) / (d : ℝ) := by
        rw [le_div_iff₀ hd0]
        have : (d : ℝ) ≤ (N : ℝ) := by exact_mod_cast hdN
        linarith
      have h1 : (0 : ℝ) ≤ Real.log f := Real.log_nonneg hf1
      have h2 : (0 : ℝ) ≤ Real.log ((N : ℝ) / (d : ℝ)) :=
        Real.log_nonneg hquot
      nlinarith

/-- Claim C2, witness: the amended zero law applied at
`tf = 1, N = 3, df = 1` (`Trabalho_04`) and `tf = 2, N = 5, df = 2`
(`Trabalho_03`). -/
theorem claim_C2_zero_law_witness :
    (Trab04.get_tf_idf 1 3 1 = 0 ↔ (1 : ℕ) = 0) ∧
    (Trab03.get_tf_idf 2 5 2 = 0 ↔ (2 : ℕ) = 0) :=
  ⟨claim_C2_zero_law.1 1 3 1 (by norm_num) (by norm_num),
   claim_C2_zero_law.2 2 5 2 (by norm_num) (by norm_num)⟩

/-- Claim C2, counterexample: in the `Trabalho_04` matrix of the postings
`T ↦ [1, 2], U ↦ [1]` the term `T` occurs in every document
(`df = N = 2`), and the cell `(T, 1)` is `0` although `tf(T, 1) = 1 ≠ 0`,
refuting the `weight = 0 ↔ tf = 0` law as stated (the claim allows every
`df ≥ 1` with `N ≥ df`, which includes `df = N`). -/
theorem claim_C2_counterexample :
    Trab04.create_term_document_matrix
        [(("T").toList, [1, 2]), (("U").toList, [1])] =
      [(("T").toList, [(1, Trab04.get_tf_idf 1 2 2),
        (2, Trab04.get_tf_idf 1 2 2)]),
       (("U").toList, [(1, Trab04.get_tf_idf 1 2 1),
        (2, Trab04.get_tf_idf 0 2 1)])] ∧
    Trab04.get_tf_idf 1 2 2 = 0 ∧ (1 : ℕ) ≠ 0 := by
  refine ⟨rfl, ?_, by norm_num⟩
  rw [Trab04.get_tf_idf, if_neg (by norm_num : (1 : ℕ) ≠ 0)]
  norm_num

end TFIDFClaims

section SimilarityClaims

/-- The three accumulators of `TFIDF.get_document_similarity_tf_idf`'s
loop are the sums, over exactly the contributing terms, of `qw*dw`,
`qw²` and `dw²` respectively. -/
theorem similarity_fold_eq {α : Type} [LinearOrderedField α]
    (m : Trab04.Model α) (qi : List (List Char × α)) (d : ℕ)
    (sq : List (List Char)) :
    Trab04.similarity_fold m qi d sq =
      (((BMT.contributingTerms m qi d sq).map (fun t =>
          (Trab04.lookupQueryWeight qi t).getD 0 *
          (Trab04.lookupDocWeight m t d).getD 0)).sum,
       ((BMT.contributingTerms m qi d sq).map (fun t =>
          ((Trab04.lookupQueryWeight qi t).getD 0) ^ 2)).sum,
       ((BMT.contributingTerms m qi d sq).map (fun t =>
          ((Trab04.lookupDocWeight m t d).getD 0) ^ 2)).sum) := by
  rw [Trab04.similarity_fold]
  suffices h : ∀ acc : α × α × α,
      sq.foldl (fun acc term =>
        match Trab04.lookupQueryWeight qi term,
          Trab04.lookupDocWeight m term d with
        | some qw, some dw =>
          (acc.1 + qw * dw, acc.2.1 + qw ^ 2, acc.2.2 + dw ^ 2)
        | _, _ => acc) acc =
      (acc.1 + ((BMT.contributingTerms m qi d sq).map (fun t =>
          (Trab04.lookupQueryWeight qi t).getD 0 *
          (Trab04.lookupDocWeight m t d).getD 0)).sum,
       acc.2.1 + ((BMT.contributingTerms m qi d sq).map (fun t =>
          ((Trab04.lookupQueryWeight qi t).getD 0) ^ 2)).sum,
       acc.2.2 + ((BMT.contributingTerms m qi d sq).map (fun t =>
          ((Trab04.lookupDocWeight m t d).getD 0) ^ 2)).sum) by
    rw [h (0, 0, 0)]
    simp
  induction sq with
  | nil => intro acc; simp [BMT.contributingTerms]
  | cons t ts ih =>
    intro acc
    rw [List.foldl_cons]
    rcases hQ : Trab04.lookupQueryWeight qi t with _ | qw
    · have hfilter : BMT.contributingTerms m qi d (t :: ts) =
          BMT.contributingTerms m qi d ts := by
        rw [BMT.contributingTerms, BMT.contributingTerms, List.filter_cons]
        simp [hQ]
      rw [hfilter, ih]
    · rcases hD : Trab04.lookupDocWeight m t d with _ | dw
      · have hfilter : BMT.contributingTerms m qi d (t :: ts) =
            BMT.contributingTerms m qi d ts := by
          rw [BMT.contributingTerms, BMT.contributingTerms, List.filter_cons]
          simp [hQ, hD]
        rw [hfilter, ih]
      · have hfilter : BMT.contributingTerms m qi d (t :: ts) =
            t :: BMT.contributingTerms m qi d ts := by
          rw [BMT.contributingTerms, BMT.contributingTerms, List.filter_cons]
          simp [hQ, hD]
        rw [hfilter, ih]
        simp only [List.map_cons, List.sum_cons, hQ, hD, Option.getD_some]
        refine Prod.ext (by ring) (Prod.ext (by ring) (by ring))

/-- The generic form of the C3 refinement: the source similarity equals
the spec-side cosine for every square-root function. -/
theorem cosine_refines_generic {α : Type} [LinearOrderedField α]
    [∀ x y : α, Decidable (x < y)] (sqrtFn : α → α) (m : Trab04.Model α) (qi : List (List Char × α))
    (d : ℕ) (sq : List (List Char)) :
    Trab04.get_document_similarity_tf_idf sqrtFn m qi d sq =
      BMT.cosineSpec sqrtFn m qi d sq := by
  rw [Trab04.get_document_similarity_tf_idf, BMT.cosineSpec,
    similarity_fold_eq]

/-- Claim C3 (confirmed).  `TFIDF.get_document_similarity_tf_idf` equals
the spec-side cosine: the scalar product sums `qw*dw` over exactly the
query terms found in both the query-index table and the document matrix
(a term absent from either side is skipped with no contribution and no
error), and the result is `scalarProduct / (queryNorm * docNorm)` when
that denominator is strictly positive and `0` otherwise — a zero norm
never divides. -/
theorem claim_C3_similarity_refinement :
    ∀ (m : Trab04.Model ℝ) (qi : List (List Char × ℝ)) (d : ℕ)
      (sq : List (List Char)),
      Trab04.get_document_similarity_tf_idf_R m qi d sq =
        BMT.cosineSpecR m qi d sq := by
  intro m qi d sq
  rw [Trab04.get_document_similarity_tf_idf_R, BMT.cosineSpecR]
  exact cosine_refines_generic Real.sqrt m qi d sq

/-- Claim C10 (confirmed).  In the similarity loop, a query term failing
either lookup is excluded from the scalar product and from both norm
accumulators alike: all three accumulators are sums over exactly the
contributing-term list (so the query norm is the norm of the restricted
query sub-vector, not of the full query vector, and likewise for the
document norm). -/
theorem claim_C10_norms_over_contributing_terms :
    ∀ (m : Trab04.Model ℝ) (qi : List (List Char × ℝ)) (d : ℕ)
      (sq : List (List Char)),
      (Trab04.similarity_fold m qi d sq).1 =
        ((BMT.contributingTerms m qi d sq).map (fun t =>
          (Trab04.lookupQueryWeight qi t).getD 0 *
          (Trab04.lookupDocWeight m t d).getD 0)).sum ∧
      (Trab04.similarity_fold m qi d sq).2.1 =
        ((BMT.contributingTerms m qi d sq).map (fun t =>
          ((Trab04.lookupQueryWeight qi t).getD 0) ^ 2)).sum ∧
      (Trab04.similarity_fold m qi d sq).2.2 =
        ((BMT.contributingTerms m qi d sq).map (fun t =>
          ((Trab04.lookupDocWeight m t d).getD 0) ^ 2)).sum := by
  intro m qi d sq
  rw [similarity_fold_eq]
  exact ⟨rfl, rfl, rfl⟩

end SimilarityClaims

section SortLemmas

theorem insDesc_perm {β γ : Type} [LinearOrder γ] [∀ x y : γ, Decidable (x ≤ y)] (key : β → γ) (x : β)
    (s : List β) : (BMT.insDesc key x s).Perm (x :: s) := by
  induction s with
  | nil => exact List.Perm.refl _
  | cons y ys ih =>
    rw [BMT.insDesc]
    by_cases h : key y ≤ key x
    · rw [if_pos h]
    · rw [if_neg h]
      exact (ih.cons y).trans (List.Perm.swap x y ys)

theorem sortDesc_perm {β γ : Type} [LinearOrder γ] [∀ x y : γ, Decidable (x ≤ y)] (key : β → γ)
    (l : List β) : (BMT.sortDesc key l).Perm l := by
  induction l with
  | nil => exact List.Perm.refl _
  | cons x xs ih =>
    rw [BMT.sortDesc]
    exact (insDesc_perm key x (BMT.sortDesc key xs)).trans (ih.cons x)

theorem insDesc_decomp {β γ : Type} [LinearOrder γ] [∀ x y : γ, Decidable (x ≤ y)] (key : β → γ) (x : β)
    (s : List β) : ∃ u v, s = u ++ v ∧
      BMT.insDesc key x s = u ++ x :: v ∧ ∀ y ∈ u, key x < key y := by
  induction s with
  | nil => exact ⟨[], [], rfl, rfl, by simp⟩
  | cons y ys ih =>
    by_cases h : key y ≤ key x
    · refine ⟨[], y :: ys, rfl, ?_, by simp⟩
      rw [BMT.insDesc, if_pos h]
      rfl
    · obtain ⟨u, v, hs, hins, hu⟩ := ih
      refine ⟨y :: u, v, by rw [List.cons_append, ← hs], ?_, ?_⟩
      · rw [BMT.insDesc, if_neg h, hins]
        rfl
      · intro z hz
        rcases List.mem_cons.mp hz with hz | hz
        · rw [hz]
          exact lt_of_not_le h
        · exact hu z hz

theorem insDesc_pairwise {β γ : Type} [LinearOrder γ] [∀ x y : γ, Decidable (x ≤ y)] (key : β → γ)
    (Q : β → β → Prop) (x : β) (s : List β)
    (hs : s.Pairwise (fun a b => key b ≤ key a ∧ (key b < key a ∨ Q a b)))
    (hx : ∀ y ∈ s, Q x y) :
    (BMT.insDesc key x s).Pairwise
      (fun a b => key b ≤ key a ∧ (key b < key a ∨ Q a b)) := by
  induction s with
  | nil => simp [BMT.insDesc]
  | cons y ys ih =>
    rw [BMT.insDesc]
    rcases List.pairwise_cons.mp hs with ⟨hy, hys⟩
    by_cases h : key y ≤ key x
    · rw [if_pos h]
      refine List.pairwise_cons.mpr ⟨?_, hs⟩
      intro z hz
      refine ⟨?_, Or.inr (hx z hz)⟩
      rcases List.mem_cons.mp hz with hz | hz
      · rw [hz]
        exact h
      · exact le_trans (hy z hz).1 h
    · rw [if_neg h]
      refine List.pairwise_cons.mpr ⟨?_, ?_⟩
      · intro z hz
        rcases List.mem_cons.mp ((insDesc_perm key x ys).mem_iff.mp hz) with
          hz | hz
        · rw [hz]
          exact ⟨le_of_lt (lt_of_not_le h), Or.inl (lt_of_not_le h)⟩
        · exact hy z hz
      · exact ih hys (fun z hz => hx z (List.mem_cons_of_mem y hz))

theorem sortDesc_pairwise_stable {β γ : Type} [LinearOrder γ] [∀ x y : γ, Decidable (x ≤ y)]
    (key : β → γ) (Q : β → β → Prop) (l : List β) (hl : l.Pairwise Q) :
    (BMT.sortDesc key l).Pairwise
      (fun a b => key b ≤ key a ∧ (key b < key a ∨ Q a b)) := by
  induction l with
  | nil => simp [BMT.sortDesc]
  | cons x xs ih =>
    rw [BMT.sortDesc]
    rcases List.pairwise_cons.mp hl with ⟨hx, hxs⟩
    refine insDesc_pairwise key Q x _ (ih hxs) ?_
    intro y hy
    exact hx y ((sortDesc_perm key xs).mem_iff.mp hy)

theorem sortDesc_sorted {β γ : Type} [LinearOrder γ] [∀ x y : γ, Decidable (x ≤ y)] (key : β → γ)
    (l : List β) :
    (BMT.sortDesc key l).Pairwise (fun a b => key b ≤ key a) := by
  have h := sortDesc_pairwise_stable key (fun _ _ => True) l
    (List.pairwise_of_forall (fun _ _ => trivial) ..)
  exact h.imp (fun hab => hab.1)

theorem sortDesc_filter_key {β γ : Type} [LinearOrder γ] [∀ x y : γ, Decidable (x ≤ y)] [DecidableEq γ]
    (key : β → γ) (n : γ) (l : List β) :
    (BMT.sortDesc key l).filter (fun x => key x = n) =
      l.filter (fun x => key x = n) := by
  induction l with
  | nil => rfl
  | cons x xs ih =>
    rw [BMT.sortDesc]
    obtain ⟨u, v, hs, hins, hu⟩ := insDesc_decomp key x (BMT.sortDesc key xs)
    have hsplit : (u ++ v).filter (fun y => decide (key y = n)) =
        xs.filter (fun y => decide (key y = n)) := by
      rw [← hs, ih]
    rw [hins, List.filter_append, List.filter_cons, List.filter_cons]
    by_cases hx : key x = n
    · have hufilter : u.filter (fun y => decide (key y = n)) = [] := by
        rw [List.filter_eq_nil_iff]
        intro y hy
        simp only [decide_eq_true_eq]
        exact fun hyn => absurd (hu y hy) (by rw [hx, hyn]; exact lt_irrefl n)
      rw [List.filter_append, hufilter, List.nil_append] at hsplit
      rw [hufilter, List.nil_append, if_pos (by simp [hx]),
        if_pos (by simp [hx]), hsplit]
    · rw [if_neg (by simp [hx]), if_neg (by simp [hx]), ← hsplit,
        List.filter_append]

end SortLemmas

section SortClaims

/-- Claim C7 (confirmed).  `sort_words_dict` orders the term ↦ postings
mapping by descending posting-list length with a stable sort: the result
is a permutation of the input (so every term keeps its exact posting
list), posting lengths are non-increasing, terms of any fixed posting
length appear exactly as they do in the input (the filter formulation of
stability), and whenever the input is pairwise related by an encounter
order `Q`, equal-length pairs of the output are still related by `Q`. -/
theorem claim_C7_sort_words_dict_stable :
    ∀ d : List (List Char × List ℕ),
      (BMT.sort_words_dict d).Perm d ∧
      (BMT.sort_words_dict d).Pairwise
        (fun a b => b.2.length ≤ a.2.length) ∧
      (∀ n : ℕ, (BMT.sort_words_dict d).filter (fun r => r.2.length = n) =
        d.filter (fun r => r.2.length = n)) ∧
      (∀ Q : (List Char × List ℕ) → (List Char × List ℕ) → Prop,
        d.Pairwise Q →
        (BMT.sort_words_dict d).Pairwise (fun a b =>
          b.2.length ≤ a.2.length ∧ (b.2.length < a.2.length ∨ Q a b))) := by
  intro d
  refine ⟨sortDesc_perm _ d, sortDesc_sorted _ d,
    fun n => sortDesc_filter_key _ n d,
    fun Q hQ => sortDesc_pairwise_stable _ Q d hQ⟩

/-- Claim C7, witness: the stability statement applied to a concrete
dictionary (`A ↦ [1]`, `B ↦ [1,2]`, `C ↦ [3]`) with the
distinct-terms encounter relation discharged by `decide`. -/
theorem claim_C7_sort_words_dict_stable_witness :
    (BMT.sort_words_dict [(("A").toList, [1]), (("B").toList, [1, 2]),
        (("C").toList, [3])]).Pairwise (fun a b =>
      b.2.length ≤ a.2.length ∧ (b.2.length < a.2.length ∨ a.1 ≠ b.1)) :=
  (claim_C7_sort_words_dict_stable [(("A").toList, [1]),
    (("B").toList, [1, 2]), (("C").toList, [3])]).2.2.2
    (fun a b => a.1 ≠ b.1) (by decide)

end SortClaims

section RunGuardClaims

/-- Claim C8 (amended).  A second `__run` after a completed run does fail
fast with the explicit "already run" error and performs no work: a
successful run sets the `has_run` guard, and any later invocation returns
the `alreadyRun` error with the state unchanged.  (The Failed half of the
original claim is refuted by `claim_C8_counterexample`.) -/
theorem claim_C8_rerun_after_success_fails :
    ∀ (ε α : Type) (st : BMT.EngineState) (w w2 : Except ε α) (a : α),
      (BMT.runOnce st w).2 = Except.ok a →
      (BMT.runOnce (BMT.runOnce st w).1 w2).2 =
        Except.error BMT.RunError.alreadyRun ∧
      (BMT.runOnce (BMT.runOnce st w).1 w2).1 = (BMT.runOnce st w).1 := by
  intro ε α st w w2 a hok
  rcases st with ⟨hr⟩
  cases hr
  · cases w with
    | ok b => simp [BMT.runOnce]
    | error e => simp [BMT.runOnce] at hok
  · simp [BMT.runOnce] at hok

/-- Claim C8, witness: a fresh engine whose run succeeds rejects its
second run. -/
theorem claim_C8_rerun_after_success_fails_witness :
    (BMT.runOnce (BMT.runOnce BMT.initEngine
        (Except.ok 5 : Except ℕ ℕ)).1 (Except.ok 6 : Except ℕ ℕ)).2 =
      Except.error BMT.RunError.alreadyRun ∧
    (BMT.runOnce (BMT.runOnce BMT.initEngine
        (Except.ok 5 : Except ℕ ℕ)).1 (Except.ok 6 : Except ℕ ℕ)).1 =
      (BMT.runOnce BMT.initEngine (Except.ok 5 : Except ℕ ℕ)).1 :=
  claim_C8_rerun_after_success_fails ℕ ℕ BMT.initEngine
    (Except.ok 5) (Except.ok 6) 5 rfl

/-- Claim C8, counterexample: `self.__has_run = True` is only executed at
the very end of `__run`, so a run that failed partway leaves the guard
unset, and a second invocation recomputes (here: succeeds) instead of
failing fast — the "Failed state also rejects" half of the claim is false
of the code. -/
theorem claim_C8_counterexample :
    (BMT.runOnce (BMT.runOnce BMT.initEngine
        (Except.error 7 : Except ℕ ℕ)).1 (Except.ok 42 : Except ℕ ℕ)).2 =
      Except.ok 42 ∧
    (BMT.runOnce (BMT.runOnce BMT.initEngine
        (Except.error 7 : Except ℕ ℕ)).1 (Except.ok 42 : Except ℕ ℕ)).2 ≠
      Except.error BMT.RunError.alreadyRun := by
  refine ⟨rfl, fun h => Except.noConfusion h⟩

end RunGuardClaims

section RankingClaims

/-- Claim C4 (amended).  For the `Trabalho_04` engine, the per-query
result holds only strictly positive scores, is non-increasing in score,
breaks ties by ascending document id whenever the model's document
columns are ascending (under the stable model of `sort_values`), has
exactly `min 40 (number of positive documents)` entries, and — when at
most 40 documents score positively — contains every positive document.
The `Trabalho_03` engine, refuted separately, applies no truncation. -/
theorem claim_C4_ranking_shape :
    ∀ (α : Type) (inst : LinearOrderedField α)
      (instLT : ∀ x y : α, Decidable (x < y))
      (instLE : ∀ x y : α, Decidable (x ≤ y)) (sqrtFn : α → α)
      (m : Trab04.Model α) (qi : List (List Char × α))
      (sq : List (List Char)),
      (∀ p ∈ Trab04.run_query sqrtFn m qi sq, 0 < p.2) ∧
      (Trab04.run_query sqrtFn m qi sq).Pairwise
        (fun a b => b.2 ≤ a.2) ∧
      (m.docs.Pairwise (· < ·) →
        (Trab04.run_query sqrtFn m qi sq).Pairwise
          (fun a b => b.2 < a.2 ∨ (b.2 = a.2 ∧ a.1 < b.1))) ∧
      (Trab04.run_query sqrtFn m qi sq).length =
        min 40 (Trab04.positive_similarities sqrtFn m qi sq).length ∧
      ((Trab04.positive_similarities sqrtFn m qi sq).length ≤ 40 →
        ∀ p ∈ Trab04.positive_similarities sqrtFn m qi sq,
          p ∈ Trab04.run_query sqrtFn m qi sq) := by
  intro α inst instLT instLE sqrtFn m qi sq
  refine ⟨?_, ?_, ?_, ?_, ?_⟩
  · intro p hp
    have hp2 : p ∈ BMT.sortDesc (fun p : ℕ × α => p.2)
        (Trab04.positive_similarities sqrtFn m qi sq) :=
      List.mem_of_mem_take hp
    have hp3 : p ∈ Trab04.positive_similarities sqrtFn m qi sq :=
      (sortDesc_perm (fun p : ℕ × α => p.2) _).mem_iff.mp hp2
    have hp4 := List.of_mem_filter hp3
    exact of_decide_eq_true hp4
  · exact List.Pairwise.sublist (List.take_sublist 40 _)
      (sortDesc_sorted (fun p : ℕ × α => p.2) _)
  · intro hdocs
    have hsims : (m.docs.map (fun d =>
        (d, Trab04.get_document_similarity_tf_idf sqrtFn m qi d
          sq))).Pairwise (fun a b => a.1 < b.1) := by
      rw [List.pairwise_map]
      exact hdocs
    have hpos : (Trab04.positive_similarities sqrtFn m qi sq).Pairwise
        (fun a b => a.1 < b.1) :=
      List.Pairwise.sublist (List.filter_sublist _) hsims
    have hsorted := sortDesc_pairwise_stable (fun p : ℕ × α => p.2)
      (fun a b => a.1 < b.1) _ hpos
    have htake := List.Pairwise.sublist (List.take_sublist 40 _) hsorted
    refine htake.imp ?_
    intro a b hab
    rcases hab.2 with h | h
    · exact Or.inl h
    · rcases lt_or_eq_of_le hab.1 with hlt | heq
      · exact Or.inl hlt
      · exact Or.inr ⟨heq, h⟩
  · rw [Trab04.run_query, List.length_take,
      (sortDesc_perm (fun p : ℕ × α => p.2)
        (Trab04.positive_similarities sqrtFn m qi sq)).length_eq]
  · intro hle p hp
    have hlen : (BMT.sortDesc (fun p : ℕ × α => p.2)
        (Trab04.positive_similarities sqrtFn m qi sq)).length ≤ 40 := by
      rw [(sortDesc_perm (fun p : ℕ × α => p.2)
        (Trab04.positive_similarities sqrtFn m qi sq)).length_eq]
      exact hle
    rw [Trab04.run_query, List.take_of_length_le hlen]
    exact (sortDesc_perm (fun p : ℕ × α => p.2) _).mem_iff.mpr hp

/-- A list zipped with a same-length constant replicate is the list of
pairs with that constant. -/
theorem zip_replicate_const {α β : Type} (l : List α) (x : β) (n : ℕ)
    (hn : l.length = n) :
    l.zip (List.replicate n x) = l.map (fun d => (d, x)) := by
  subst hn
  induction l with
  | nil => rfl
  | cons a as ih => simpa [List.replicate_succ] using ih

/-- Searching the constant-pair list for a first component it contains
yields that pair. -/
theorem find_in_map_const {α β : Type} [DecidableEq α] (l : List α) (x : β)
    (d : α) (hd : d ∈ l) :
    (l.map (fun e => (e, x))).find? (fun c => c.1 = d) = some (d, x) := by
  induction l with
  | nil => cases hd
  | cons a as ih =>
    rcases List.mem_cons.mp hd with h | h
    · rw [h, List.map_cons, List.find?_cons_of_pos _ (by simp)]
    · by_cases ha : a = d
      · rw [ha, List.map_cons, List.find?_cons_of_pos _ (by simp)]
      · rw [List.map_cons, List.find?_cons_of_neg _ (by simp [ha])]
        exact ih h

/-- In the all-ones one-term model over the `n`-document universe, every
document scores exactly 1 for the one-word query. -/
theorem score_at_all_ones (n : ℕ) (w : List Char) (d : ℕ)
    (hd : d ∈ List.range n) :
    Trab03.score_at
      (⟨List.range n, [(w, List.replicate n (1 : ℚ))]⟩ : Trab04.Model ℚ)
      [w] d = 1 := by
  rw [Trab03.score_at]
  simp only [List.foldl_cons, List.foldl_nil]
  rw [List.find?_cons_of_pos _ (by simp)]
  simp only
  rw [zip_replicate_const (List.range n) (1 : ℚ) n (List.length_range n),
    find_in_map_const (List.range n) (1 : ℚ) d hd]
  norm_num

/-- Claim C4, witness: the ranking-shape theorem applied over `ℚ` (with
the identity in place of the square root) to a three-document model
whose positive-similarity list evaluates to
`[(1, 2/5), (2, 1/5), (3, 1/5)]`; the sortedness and size hypotheses are
discharged by computation. -/
theorem claim_C4_ranking_shape_witness :
    (Trab04.run_query (fun x : ℚ => x)
        ⟨[1, 2, 3], [(("CAT").toList, [1, 0, 2]), (("DOG").toList, [0, 1, 0])]⟩
        [(("CAT").toList, 2), (("DOG").toList, 1)]
        [("CAT").toList, ("DOG").toList, ("FOX").toList]).Pairwise
      (fun a b => b.2 < a.2 ∨ (b.2 = a.2 ∧ a.1 < b.1)) ∧
    ((1 : ℕ), (2 / 5 : ℚ)) ∈ Trab04.run_query (fun x : ℚ => x)
        ⟨[1, 2, 3], [(("CAT").toList, [1, 0, 2]), (("DOG").toList, [0, 1, 0])]⟩
        [(("CAT").toList, 2), (("DOG").toList, 1)]
        [("CAT").toList, ("DOG").toList, ("FOX").toList] := by
  have hpos : Trab04.positive_similarities (fun x : ℚ => x)
      ⟨[1, 2, 3], [(("CAT").toList, [1, 0, 2]), (("DOG").toList, [0, 1, 0])]⟩
      [(("CAT").toList, 2), (("DOG").toList, 1)]
      [("CAT").toList, ("DOG").toList, ("FOX").toList] =
      [(1, 2 / 5), (2, 1 / 5), (3, 1 / 5)] := by
    simp [Trab04.positive_similarities,
      Trab04.get_document_similarity_tf_idf, Trab04.similarity_fold,
      Trab04.lookupQueryWeight, Trab04.lookupDocWeight, List.find?]
    norm_num
  constructor
  · exact (claim_C4_ranking_shape ℚ inferInstance inferInstance
      inferInstance (fun x => x)
      ⟨[1, 2, 3], [(("CAT").toList, [1, 0, 2]), (("DOG").toList, [0, 1, 0])]⟩
      [(("CAT").toList, 2), (("DOG").toList, 1)]
      [("CAT").toList, ("DOG").toList, ("FOX").toList]).2.2.1 (by decide)
  · refine (claim_C4_ranking_shape ℚ inferInstance inferInstance
      inferInstance (fun x => x)
      ⟨[1, 2, 3], [(("CAT").toList, [1, 0, 2]), (("DOG").toList, [0, 1, 0])]⟩
      [(("CAT").toList, 2), (("DOG").toList, 1)]
      [("CAT").toList, ("DOG").toList, ("FOX").toList]).2.2.2.2 ?_ _ ?_
    · rw [hpos]
      norm_num
    · rw [hpos]
      exact List.mem_cons_self _ _

/-- Claim C4, counterexample: the `Trabalho_03` engine's per-query loop
performs no truncation.  For a model with 41 document columns in which
the term `CAT` has weight 1 everywhere, the query `[CAT]` produces 41
ranked entries, where the claim demands at most the top 40. -/
theorem claim_C4_counterexample :
    (Trab03.run_query
        (⟨List.range 41,
          [(("CAT").toList, List.replicate 41 (1 : ℚ))]⟩ : Trab04.Model ℚ)
        [("CAT").toList]).length = 41 ∧ ¬(41 ≤ 40) := by
  refine ⟨?_, by norm_num⟩
  rw [Trab03.run_query, List.length_map, List.enumFrom_length,
    Trab03.search,
    ((sortDesc_perm (fun p : ℕ × ℚ => p.2) _)).length_eq,
    List.filter_eq_self.mpr, List.length_map, List.length_range]
  intro p hp
  rcases List.mem_map.mp hp with ⟨d, hd, hpd⟩
  have hscore := score_at_all_ones 41 (("CAT").toList) d hd
  rw [← hpd]
  simp only [hscore]
  norm_num

end RankingClaims

section DeterminismClaims

/-- Iterating `filter (≠ stopword)` over the stopword list is one filter
by non-membership. -/
theorem dropStopwords_eq_filter (stopwords : List (List Char))
    (text : List (List Char)) :
    BMT.dropStopwords stopwords text =
      text.filter (fun w => ¬ w ∈ stopwords) := by
  induction stopwords generalizing text with
  | nil =>
    rw [BMT.dropStopwords]
    simp
  | cons sw sws ih =>
    rw [BMT.dropStopwords, List.foldl_cons, ← BMT.dropStopwords, ih,
      List.filter_filter]
    refine List.filter_congr ?_
    intro w _
    simp only [List.mem_cons, decide_not]
    by_cases h1 : w = sw <;> by_cases h2 : w ∈ sws <;> simp [h1, h2]

/-- The two sanitizers read the stopword list only through membership. -/
theorem sanitize_stopword_extensional :
    (∀ (sw sw2 : List (List Char)) (b : Bool) (x : List Char),
      (∀ t, t ∈ sw ↔ t ∈ sw2) →
      BMT.sanitize03 sw b x = BMT.sanitize03 sw2 b x) ∧
    (∀ (stem : List Char → List Char) (sw sw2 : List (List Char))
      (rs us : Bool) (x : List Char),
      (∀ t, t ∈ sw ↔ t ∈ sw2) →
      BMT.sanitize04 stem sw rs us x = BMT.sanitize04 stem sw2 rs us x) := by
  have hdrop : ∀ (sw sw2 : List (List Char)) (text : List (List Char)),
      (∀ t, t ∈ sw ↔ t ∈ sw2) →
      BMT.dropStopwords sw text = BMT.dropStopwords sw2 text := by
    intro sw sw2 text hiff
    rw [dropStopwords_eq_filter, dropStopwords_eq_filter]
    refine List.filter_congr ?_
    intro w _
    simp [hiff w]
  constructor
  · intro sw sw2 b x hiff
    rw [BMT.sanitize03, BMT.sanitize03]
    cases b
    · rfl
    · simp only [if_pos]
      rw [hdrop sw sw2 _ hiff]
  · intro stem sw sw2 rs us x hiff
    rw [BMT.sanitize04, BMT.sanitize04]
    cases rs
    · rfl
    · simp only
      rw [hdrop sw sw2 _ hiff]

/-- Claim C9 (amended).  The normalizer is a deterministic function of
its input text, its flags and the stopword-file contents — it depends on
the loaded stopword list only through membership — and the matrix
builder and ranker are deterministic functions of their inputs (the
embedding is effect-free: the stopword file, the one I/O dependency of
`Tools.sanitize`, is an explicit argument here).  The original claim's
assertion that normalize depends on the text and flags alone is refuted
separately: its output also depends on what the stopword file holds. -/
theorem claim_C9_determinism :
    (∀ (sw sw2 : List (List Char)) (b : Bool) (x : List Char),
      (∀ t, t ∈ sw ↔ t ∈ sw2) →
      BMT.sanitize03 sw b x = BMT.sanitize03 sw2 b x) ∧
    (∀ (stem : List Char → List Char) (sw sw2 : List (List Char))
      (rs us : Bool) (x : List Char),
      (∀ t, t ∈ sw ↔ t ∈ sw2) →
      BMT.sanitize04 stem sw rs us x = BMT.sanitize04 stem sw2 rs us x) ∧
    (∀ df : List (List Char × List ℕ),
      Trab04.create_term_document_matrix df =
        Trab04.create_term_document_matrix df) ∧
    (∀ (m : Trab04.Model ℝ) (qi : List (List Char × ℝ)) (d : ℕ)
      (sq : List (List Char)),
      Trab04.get_document_similarity_tf_idf_R m qi d sq =
        Trab04.get_document_similarity_tf_idf_R m qi d sq) :=
  ⟨sanitize_stopword_extensional.1, sanitize_stopword_extensional.2,
   fun _ => rfl, fun _ _ _ _ => rfl⟩

/-- Claim C9, witness: a duplicated stopword list sanitizes like its
deduplicated version. -/
theorem claim_C9_determinism_witness :
    BMT.sanitize03 [("THE").toList, ("THE").toList] true
        ("the cat").toList =
      BMT.sanitize03 [("THE").toList] true ("the cat").toList :=
  claim_C9_determinism.1 [("THE").toList, ("THE").toList]
    [("THE").toList] true ("the cat").toList (fun t => by simp)

/-- Claim C9, counterexample: with identical input text and identical
flags, two stopword-file states give different outputs — `Tools.sanitize`
re-reads `STOPWORDS.txt` on every stopword-removing call, so normalize is
not a function of the text and flags alone (and performs I/O to get the
list). -/
theorem claim_C9_counterexample :
    BMT.sanitize04 id [("CAT").toList] true false ("cat dog").toList ≠
      BMT.sanitize04 id [] true false ("cat dog").toList := by
  have h1 : BMT.sanitize04 id [("CAT").toList] true false
      ("cat dog").toList = ("DOG").toList := by
    simp [BMT.sanitize04, BMT.baseClean, BMT.collapseWs, BMT.pyIsWs,
      BMT.punctToSpace, BMT.unidecodeStr, BMT.accentFold, BMT.nlToSpace,
      BMT.pyUpper, BMT.pyStrip, BMT.splitSpace, BMT.dropStopwords,
      BMT.pyIsAlphaTok, BMT.joinSpace, BMT.isPunct04, BMT.isPunct03,
      BMT.squote, BMT.accentTable]
  have h2 : BMT.sanitize04 id [] true false ("cat dog").toList =
      ("CAT DOG").toList := by
    simp [BMT.sanitize04, BMT.baseClean, BMT.collapseWs, BMT.pyIsWs,
      BMT.punctToSpace, BMT.unidecodeStr, BMT.accentFold, BMT.nlToSpace,
      BMT.pyUpper, BMT.pyStrip, BMT.splitSpace, BMT.dropStopwords,
      BMT.pyIsAlphaTok, BMT.joinSpace, BMT.isPunct04, BMT.isPunct03,
      BMT.squote, BMT.accentTable]
  rw [h1, h2]
  decide

end DeterminismClaims


section CharLemmas

theorem toNat_ofNat_lt (n : ℕ) (h : n < 55296) : (Char.ofNat n).toNat = n := by
  rw [Char.ofNat, dif_pos (Or.inl (by exact_mod_cast h))]
  rfl

theorem char_eq_of_toNat_eq {a b : Char} (h : a.toNat = b.toNat) : a = b := by
  rw [← Char.ofNat_toNat a, ← Char.ofNat_toNat b, h]

theorem char_eq_iff_toNat {a b : Char} : a = b ↔ a.toNat = b.toNat :=
  ⟨fun h => h ▸ rfl, char_eq_of_toNat_eq⟩

theorem accent_find1_ascii (c : Char) (h : c.toNat < 128) :
    BMT.accentTable.find? (fun p => p.1 = c) = none := by
  rw [List.find?_eq_none]
  intro p hp
  fin_cases hp <;> simp only [decide_eq_false_iff_not] <;>
    (intro he; rw [← of_decide_eq_true he] at h; exact absurd h (by decide))

theorem accent_find2_ascii (c : Char) (h : c.toNat < 128) :
    BMT.accentTable.find? (fun p => p.2.1 = c) = none := by
  rw [List.find?_eq_none]
  intro p hp
  fin_cases hp <;> simp only [decide_eq_false_iff_not] <;>
    (intro he; rw [← of_decide_eq_true he] at h; exact absurd h (by decide))

theorem pyUpper_ascii_nonlower (c : Char) (h : c.toNat < 128)
    (hl : ¬(97 ≤ c.toNat ∧ c.toNat ≤ 122)) : BMT.pyUpper c = c := by
  rw [BMT.pyUpper, if_neg hl, accent_find1_ascii c h]

theorem pyUpper_lower_toNat (c : Char)
    (hl : 97 ≤ c.toNat ∧ c.toNat ≤ 122) :
    (BMT.pyUpper c).toNat = c.toNat - 32 := by
  rw [BMT.pyUpper, if_pos hl]
  exact toNat_ofNat_lt _ (by omega)

theorem accentFold_ascii (c : Char) (h : c.toNat < 128) :
    BMT.accentFold c = [c] := by
  rw [BMT.accentFold, if_pos h]

theorem pyIsWs_toNat {d : Char} :
    BMT.pyIsWs d = true ↔ (d.toNat = 32 ∨ d.toNat = 9 ∨ d.toNat = 10 ∨
      d.toNat = 13 ∨ d.toNat = 11 ∨ d.toNat = 12) := by
  rw [BMT.pyIsWs]
  simp only [Bool.or_eq_true, decide_eq_true_eq]
  constructor
  · rintro (((((he | he) | he) | he) | he) | he) <;>
      rw [he] <;> simp [Char.toNat]
  · rintro (hn | hn | hn | hn | hn | hn)
    · exact Or.inl (Or.inl (Or.inl (Or.inl (Or.inl
        (char_eq_of_toNat_eq hn)))))
    · exact Or.inl (Or.inl (Or.inl (Or.inl (Or.inr
        (char_eq_of_toNat_eq hn)))))
    · exact Or.inl (Or.inl (Or.inl (Or.inr (char_eq_of_toNat_eq hn))))
    · exact Or.inl (Or.inl (Or.inr (char_eq_of_toNat_eq hn)))
    · exact Or.inl (Or.inr (char_eq_of_toNat_eq hn))
    · exact Or.inr (char_eq_of_toNat_eq hn)

theorem nl_toNat : ('\n').toNat = 10 := rfl

/-- Stability of the upper-case/accent-fold composition: every character
it emits is fixed by a second application of `pyUpper` and `accentFold`,
has the same whitespace status as the source character, and is a newline
only if the source was. -/
theorem mem_fold_upper_stable (c d : Char)
    (hd : d ∈ BMT.accentFold (BMT.pyUpper c)) :
    BMT.pyUpper d = d ∧ BMT.accentFold d = [d] ∧
    BMT.pyIsWs d = BMT.pyIsWs c ∧ (d = '\n' → c = '\n') := by
  by_cases hlow : 97 ≤ c.toNat ∧ c.toNat ≤ 122
  · have hu := pyUpper_lower_toNat c hlow
    rw [accentFold_ascii _ (by omega), List.mem_singleton] at hd
    rw [hd]
    refine ⟨pyUpper_ascii_nonlower _ (by omega) (by omega),
      accentFold_ascii _ (by omega), ?_, ?_⟩
    · have h1 : BMT.pyIsWs (BMT.pyUpper c) = false := by
        rw [← Bool.not_eq_true]
        intro hws
        rcases pyIsWs_toNat.mp hws with hn | hn | hn | hn | hn | hn <;> omega
      have h2 : BMT.pyIsWs c = false := by
        rw [← Bool.not_eq_true]
        intro hws
        rcases pyIsWs_toNat.mp hws with hn | hn | hn | hn | hn | hn <;> omega
      rw [h1, h2]
    · intro he
      rw [he, nl_toNat] at hu
      omega
  · by_cases hascii : c.toNat < 128
    · rw [pyUpper_ascii_nonlower c hascii hlow,
        accentFold_ascii c hascii, List.mem_singleton] at hd
      rw [hd]
      exact ⟨pyUpper_ascii_nonlower c hascii hlow,
        accentFold_ascii c hascii, rfl, fun h => h⟩
    · have hcups : BMT.pyIsWs c = false := by
        rw [← Bool.not_eq_true]
        intro hws
        rcases pyIsWs_toNat.mp hws with hn | hn | hn | hn | hn | hn <;> omega
      rcases hfind : BMT.accentTable.find? (fun p => p.1 = c) with _ | p
      · have hpu : BMT.pyUpper c = c := by
          rw [BMT.pyUpper, if_neg hlow, hfind]
        rw [hpu] at hd
        rw [BMT.accentFold, if_neg (by omega)] at hd
        rcases hfind2 : BMT.accentTable.find?
            (fun p => decide (p.1 = c ∨ p.2.1 = c)) with _ | q
        · rw [hfind2] at hd
          exact absurd hd (List.not_mem_nil d)
        · rw [hfind2] at hd
          have hqmem := List.mem_of_find?_eq_some hfind2
          have hq1 : ¬(q.1 = c) := by
            intro he
            have hnone := List.find?_eq_none.mp hfind q hqmem
            simp [he] at hnone
          change d ∈ (if q.1 = c then [BMT.pyLower q.2.2] else [q.2.2]) at hd
          rw [if_neg hq1, List.mem_singleton] at hd
          rw [hd]
          fin_cases hqmem <;>
            exact ⟨by decide, by decide, by rw [hcups]; decide,
              fun h => absurd h (by decide)⟩
      · have hpu : BMT.pyUpper c = p.2.1 := by
          rw [BMT.pyUpper, if_neg hlow, hfind]
        rw [hpu] at hd
        have hpmem := List.mem_of_find?_eq_some hfind
        fin_cases hpmem <;>
          simp +decide [BMT.accentFold, BMT.accentTable, BMT.pyLower] at hd <;>
          rw [hd] <;>
          exact ⟨by decide, by decide, by rw [hcups]; decide,
            fun h => absurd h (by decide)⟩

end CharLemmas

section StringLemmas

theorem map_id_of_fixed {f : Char → Char} {y : List Char}
    (h : ∀ c ∈ y, f c = c) : y.map f = y :=
  (List.map_congr_left h).trans (List.map_id y)

theorem unidecodeStr_id_of_fixed {y : List Char}
    (h : ∀ c ∈ y, BMT.accentFold c = [c]) : BMT.unidecodeStr y = y := by
  rw [BMT.unidecodeStr]
  induction y with
  | nil => rfl
  | cons c cs ih =>
    rw [List.flatMap_cons, h c (List.mem_cons_self c cs),
      ih (fun d hd => h d (List.mem_cons_of_mem c hd))]
    rfl

theorem nlToSpace_id_of_no_nl {y : List Char}
    (h : ∀ c ∈ y, c ≠ '\n') : BMT.nlToSpace y = y := by
  rw [BMT.nlToSpace]
  refine map_id_of_fixed (fun c hc => ?_)
  rw [if_neg (h c hc)]

theorem punctToSpace_id_of_no_punct (isP : Char → Bool) {y : List Char}
    (h : ∀ c ∈ y, isP c = false) : BMT.punctToSpace isP y = y := by
  rw [BMT.punctToSpace]
  refine map_id_of_fixed (fun c hc => ?_)
  rw [h c hc]
  rfl

theorem collapseWs_eq_self {y : List Char}
    (h : y.Chain' (fun a b => ¬(BMT.pyIsWs a = true ∧ BMT.pyIsWs b = true))) :
    BMT.collapseWs y = y := by
  induction y with
  | nil => simp [BMT.collapseWs]
  | cons c cs ih =>
    cases cs with
    | nil =>
      by_cases hc : BMT.pyIsWs c <;> simp [BMT.collapseWs, hc]
    | cons d ds =>
      rcases List.chain'_cons.mp h with ⟨hcd, htail⟩
      by_cases hc : BMT.pyIsWs c
      · have hd : ¬ BMT.pyIsWs d = true := fun hd => hcd ⟨hc, hd⟩
        rw [BMT.collapseWs, if_pos hc, if_neg hd]
        rw [ih htail]
      · rw [BMT.collapseWs, if_neg hc, ih htail]

theorem dropWhile_eq_self_of_head {p : Char → Bool} {y : List Char}
    (h : ∀ c, y.head? = some c → p c = false) : y.dropWhile p = y := by
  cases y with
  | nil => rfl
  | cons c cs =>
    rw [List.dropWhile_cons, if_neg]
    rw [h c rfl]
    exact Bool.false_ne_true

theorem pyStrip_eq_self {y : List Char}
    (hh : ∀ c, y.head? = some c → BMT.pyIsWs c = false)
    (hl : ∀ c, y.getLast? = some c → BMT.pyIsWs c = false) :
    BMT.pyStrip y = y := by
  rw [BMT.pyStrip, dropWhile_eq_self_of_head hh,
    dropWhile_eq_self_of_head (fun c hc => hl c (by rwa [← List.head?_reverse])),
    List.reverse_reverse]

theorem mem_punctToSpace {isP : Char → Bool} {y : List Char} {c : Char}
    (h : c ∈ BMT.punctToSpace isP y) :
    c = ' ' ∨ (c ∈ y ∧ isP c = false) := by
  rw [BMT.punctToSpace, List.mem_map] at h
  obtain ⟨d, hd, hdc⟩ := h
  by_cases hP : isP d
  · rw [if_pos hP] at hdc
    exact Or.inl hdc.symm
  · rw [if_neg hP] at hdc
    rw [← hdc]
    exact Or.inr ⟨hd, by rwa [← Bool.not_eq_true]⟩

theorem collapseWs_nil : BMT.collapseWs [] = [] := by
  simp [BMT.collapseWs]

theorem collapseWs_single (d : Char) : BMT.collapseWs [d] = [d] := by
  by_cases hd : BMT.pyIsWs d <;> simp [BMT.collapseWs, hd]

theorem collapseWs_cons2_ws {d e : Char} (hd : BMT.pyIsWs d = true)
    (he : BMT.pyIsWs e = true) (ds : List Char) :
    BMT.collapseWs (d :: e :: ds) =
      ' ' :: BMT.collapseWs (ds.dropWhile BMT.pyIsWs) := by
  simp [BMT.collapseWs, hd, he]

theorem collapseWs_cons2_nws {d e : Char} (hd : BMT.pyIsWs d = true)
    (he : BMT.pyIsWs e = false) (ds : List Char) :
    BMT.collapseWs (d :: e :: ds) = d :: BMT.collapseWs (e :: ds) := by
  simp [BMT.collapseWs, hd, he]

theorem collapseWs_cons_nws {d : Char} (hd : BMT.pyIsWs d = false)
    (ds : List Char) :
    BMT.collapseWs (d :: ds) = d :: BMT.collapseWs ds := by
  cases ds with
  | nil => simp [BMT.collapseWs, hd]
  | cons e es => simp [BMT.collapseWs, hd]

theorem mem_collapseWs {y : List Char} {c : Char}
    (h : c ∈ BMT.collapseWs y) : c = ' ' ∨ c ∈ y := by
  induction y using BMT.collapseWs.induct with
  | case1 =>
    rw [collapseWs_nil] at h
    cases h
  | case2 d hd =>
    rw [collapseWs_single] at h
    exact Or.inr h
  | case3 d hd e ds he ih =>
    rw [collapseWs_cons2_ws hd he] at h
    rcases List.mem_cons.mp h with h | h
    · exact Or.inl h
    · rcases ih h with h | h
      · exact Or.inl h
      · exact Or.inr (List.mem_cons_of_mem d (List.mem_cons_of_mem e
          ((List.dropWhile_sublist BMT.pyIsWs).mem h)))
  | case4 d hd e ds he ih =>
    rw [collapseWs_cons2_nws hd (by rwa [← Bool.not_eq_true]) ds] at h
    rcases List.mem_cons.mp h with h | h
    · exact Or.inr (by simp [h])
    · rcases ih h with h | h
      · exact Or.inl h
      · exact Or.inr (List.mem_cons_of_mem d h)
  | case5 d ds hd ih =>
    rw [collapseWs_cons_nws (by rwa [← Bool.not_eq_true]) ds] at h
    rcases List.mem_cons.mp h with h | h
    · exact Or.inr (by simp [h])
    · rcases ih h with h | h
      · exact Or.inl h
      · exact Or.inr (List.mem_cons_of_mem d h)

theorem mem_pyStrip {y : List Char} {c : Char} (h : c ∈ BMT.pyStrip y) :
    c ∈ y := by
  rw [BMT.pyStrip] at h
  rw [List.mem_reverse] at h
  have h2 := (List.dropWhile_sublist BMT.pyIsWs).mem h
  rw [List.mem_reverse] at h2
  exact (List.dropWhile_sublist BMT.pyIsWs).mem h2

end StringLemmas

section SplitJoinLemmas

theorem splitSpace_ne_nil (z : List Char) : BMT.splitSpace z ≠ [] := by
  induction z with
  | nil => simp [BMT.splitSpace]
  | cons a as ih =>
    rw [BMT.splitSpace]
    by_cases ha : a = ' '
    · simp [ha]
    · rw [if_neg ha]
      rcases hs : BMT.splitSpace as with _ | ⟨t, ts⟩
      · exact absurd hs ih
      · simp

theorem mem_splitSpace_chars {z : List Char} {t : List Char} {c : Char}
    (ht : t ∈ BMT.splitSpace z) (hc : c ∈ t) : c ∈ z ∧ c ≠ ' ' := by
  induction z generalizing t with
  | nil =>
    rw [BMT.splitSpace, List.mem_singleton] at ht
    rw [ht] at hc
    cases hc
  | cons a as ih =>
    rw [BMT.splitSpace] at ht
    by_cases ha : a = ' '
    · rw [if_pos ha] at ht
      rcases List.mem_cons.mp ht with h | h
      · rw [h] at hc
        cases hc
      · obtain ⟨h1, h2⟩ := ih h hc
        exact ⟨List.mem_cons_of_mem a h1, h2⟩
    · rw [if_neg ha] at ht
      rcases hs : BMT.splitSpace as with _ | ⟨t0, ts0⟩
      · exact absurd hs (splitSpace_ne_nil as)
      · rw [hs] at ht
        rcases List.mem_cons.mp ht with h | h
        · rw [h] at hc
          rcases List.mem_cons.mp hc with h2 | h2
          · rw [h2]
            exact ⟨List.mem_cons_self a as, ha⟩
          · obtain ⟨h3, h4⟩ := ih (by rw [hs]; exact List.mem_cons_self t0 ts0) h2
            exact ⟨List.mem_cons_of_mem a h3, h4⟩
        · obtain ⟨h3, h4⟩ := ih (by rw [hs]; exact List.mem_cons_of_mem t0 h) hc
          exact ⟨List.mem_cons_of_mem a h3, h4⟩

theorem splitSpace_no_space {t : List Char} (h : ' ' ∉ t) :
    BMT.splitSpace t = [t] := by
  induction t with
  | nil => rfl
  | cons c cs ih =>
    rw [BMT.splitSpace,
      if_neg (fun hc => h (by rw [hc]; exact List.mem_cons_self _ _)),
      ih (fun hc => h (List.mem_cons_of_mem c hc))]

theorem splitSpace_append_space {t r : List Char} (h : ' ' ∉ t) :
    BMT.splitSpace (t ++ ' ' :: r) = t :: BMT.splitSpace r := by
  induction t with
  | nil => simp [BMT.splitSpace]
  | cons c cs ih =>
    rw [List.cons_append, BMT.splitSpace,
      if_neg (fun hc => h (by rw [hc]; exact List.mem_cons_self _ _)),
      ih (fun hc => h (List.mem_cons_of_mem c hc))]

theorem joinSpace_single (t : List Char) : BMT.joinSpace [t] = t := by
  rw [BMT.joinSpace]

theorem joinSpace_cons2 (t t2 : List Char) (ts : List (List Char)) :
    BMT.joinSpace (t :: t2 :: ts) = t ++ ' ' :: BMT.joinSpace (t2 :: ts) := by
  rw [BMT.joinSpace]
  simp

theorem splitSpace_joinSpace {ts : List (List Char)} (hne : ts ≠ [])
    (h : ∀ t ∈ ts, ' ' ∉ t) :
    BMT.splitSpace (BMT.joinSpace ts) = ts := by
  induction ts with
  | nil => exact absurd rfl hne
  | cons t rest ih =>
    cases rest with
    | nil =>
      rw [joinSpace_single]
      exact splitSpace_no_space (h t (List.mem_cons_self t []))
    | cons t2 rest2 =>
      rw [joinSpace_cons2,
        splitSpace_append_space (h t (List.mem_cons_self t _)),
        ih (by simp) (fun u hu => h u (List.mem_cons_of_mem t hu))]

theorem mem_joinSpace {ts : List (List Char)} {c : Char}
    (h : c ∈ BMT.joinSpace ts) : c = ' ' ∨ ∃ t ∈ ts, c ∈ t := by
  induction ts with
  | nil => cases h
  | cons t rest ih =>
    cases rest with
    | nil =>
      rw [joinSpace_single] at h
      exact Or.inr ⟨t, List.mem_cons_self t [], h⟩
    | cons t2 rest2 =>
      rw [joinSpace_cons2] at h
      rcases List.mem_append.mp h with h | h
      · exact Or.inr ⟨t, List.mem_cons_self t _, h⟩
      · rcases List.mem_cons.mp h with h | h
        · exact Or.inl h
        · rcases ih h with h | ⟨u, hu, hcu⟩
          · exact Or.inl h
          · exact Or.inr ⟨u, List.mem_cons_of_mem t hu, hcu⟩

theorem joinSpace_ne_nil {t : List Char} {ts : List (List Char)}
    (ht : t ≠ []) : BMT.joinSpace (t :: ts) ≠ [] := by
  cases ts with
  | nil => rw [joinSpace_single]; exact ht
  | cons t2 rest =>
    rw [joinSpace_cons2]
    cases t with
    | nil => simp
    | cons c cs => simp

theorem joinSpace_head {t : List Char} {ts : List (List Char)} :
    t ≠ [] → (BMT.joinSpace (t :: ts)).head? = t.head? := by
  intro ht
  cases ts with
  | nil => rw [joinSpace_single]
  | cons t2 rest =>
    rw [joinSpace_cons2]
    cases t with
    | nil => exact absurd rfl ht
    | cons c cs => rw [List.cons_append, List.head?_cons, List.head?_cons]

theorem joinSpace_getLast {ts : List (List Char)}
    (hne : ∀ t ∈ ts, t ≠ []) (h0 : ts ≠ []) :
    ∃ t ∈ ts, (BMT.joinSpace ts).getLast? = t.getLast? := by
  induction ts with
  | nil => exact absurd rfl h0
  | cons t rest ih =>
    cases rest with
    | nil =>
      rw [joinSpace_single]
      exact ⟨t, List.mem_cons_self t [], rfl⟩
    | cons t2 rest2 =>
      obtain ⟨u, hu, hlast⟩ := ih (fun x hx => hne x (List.mem_cons_of_mem t hx))
        (by simp)
      have hJne : BMT.joinSpace (t2 :: rest2) ≠ [] :=
        joinSpace_ne_nil (hne t2 (by simp))
      obtain ⟨x, hx⟩ := Option.isSome_iff_exists.mp
        (List.getLast?_isSome.mpr hJne)
      refine ⟨u, List.mem_cons_of_mem t hu, ?_⟩
      rw [joinSpace_cons2, List.getLast?_append,
        show ' ' :: BMT.joinSpace (t2 :: rest2) =
          [' '] ++ BMT.joinSpace (t2 :: rest2) from rfl,
        List.getLast?_append, hx, Option.or_some, Option.or_some, ← hx,
        hlast]

end SplitJoinLemmas

section TokenLemmas

theorem nlToSpace_no_nl (x : List Char) : ∀ c ∈ BMT.nlToSpace x, c ≠ '\n' := by
  intro c hc
  rw [BMT.nlToSpace, List.mem_map] at hc
  obtain ⟨d, _, hdc⟩ := hc
  by_cases hd : d = '\n'
  · rw [if_pos hd] at hdc
    rw [← hdc]
    decide
  · rw [if_neg hd] at hdc
    rw [← hdc]
    exact hd

theorem wsLimited_nl {x : List Char} (hx : BMT.wsLimited x) :
    ∀ c ∈ BMT.nlToSpace x, BMT.pyIsWs c = true → c = ' ' := by
  intro c hc hws
  rw [BMT.nlToSpace, List.mem_map] at hc
  obtain ⟨d, hd, hdc⟩ := hc
  by_cases hdn : d = '\n'
  · rw [if_pos hdn] at hdc
    exact hdc.symm
  · rw [if_neg hdn] at hdc
    rw [← hdc] at hws ⊢
    rcases hx d hd hws with h | h
    · exact h
    · exact absurd h hdn

/-- Every character of a token produced by the shared cleaning pipeline
(clean, strip, split on spaces) is fixed by `pyUpper` and `accentFold`,
is not a newline, not a space, not in the punctuation class, and traces
back to a character of the newline-replaced input with the same
whitespace status whose fold emitted it. -/
theorem sanitize_token_char_props (isP : Char → Bool) (x : List Char)
    {t : List Char} {c : Char}
    (ht : t ∈ BMT.splitSpace (BMT.pyStrip (BMT.baseClean isP x)))
    (hc : c ∈ t) :
    BMT.pyUpper c = c ∧ BMT.accentFold c = [c] ∧ c ≠ '\n' ∧
    isP c = false ∧ c ≠ ' ' ∧
    ∃ c1 ∈ BMT.nlToSpace x, BMT.pyIsWs c = BMT.pyIsWs c1 ∧
      c ∈ BMT.accentFold (BMT.pyUpper c1) := by
  obtain ⟨hmem, hcs⟩ := mem_splitSpace_chars ht hc
  have hmem2 : c ∈ BMT.baseClean isP x := mem_pyStrip hmem
  rw [BMT.baseClean] at hmem2
  rcases mem_punctToSpace hmem2 with h | ⟨h, hpunct⟩
  · exact absurd h hcs
  · rcases mem_collapseWs h with h2 | h2
    · exact absurd h2 hcs
    · rw [BMT.unidecodeStr, List.mem_flatMap] at h2
      obtain ⟨c0, hc0, hcf⟩ := h2
      rw [List.mem_map] at hc0
      obtain ⟨c1, hc1, hc10⟩ := hc0
      rw [← hc10] at hcf
      obtain ⟨hs1, hs2, hs3, hs4⟩ := mem_fold_upper_stable c1 c hcf
      exact ⟨hs1, hs2, fun hn => absurd (hs4 hn) (nlToSpace_no_nl x c1 hc1),
        hpunct, hcs, c1, hc1, hs3, hcf⟩

theorem alpha_toNat {c : Char} (h : c.isAlpha = true) :
    (65 ≤ c.toNat ∧ c.toNat ≤ 90) ∨ (97 ≤ c.toNat ∧ c.toNat ≤ 122) := by
  rw [Char.isAlpha, Bool.or_eq_true] at h
  rcases h with h | h
  · rw [Char.isUpper, Bool.and_eq_true, decide_eq_true_eq,
      decide_eq_true_eq] at h
    obtain ⟨h1, h2⟩ := h
    rw [ge_iff_le, UInt32.le_def, BitVec.le_def] at h1
    rw [UInt32.le_def, BitVec.le_def] at h2
    exact Or.inl ⟨h1, h2⟩
  · rw [Char.isLower, Bool.and_eq_true, decide_eq_true_eq,
      decide_eq_true_eq] at h
    obtain ⟨h1, h2⟩ := h
    rw [ge_iff_le, UInt32.le_def, BitVec.le_def] at h1
    rw [UInt32.le_def, BitVec.le_def] at h2
    exact Or.inr ⟨h1, h2⟩

theorem alpha_not_ws {c : Char} (h : c.isAlpha = true) :
    BMT.pyIsWs c = false := by
  rw [← Bool.not_eq_true]
  intro hws
  rcases alpha_toNat h with ⟨h1, h2⟩ | ⟨h1, h2⟩ <;>
    rcases pyIsWs_toNat.mp hws with hn | hn | hn | hn | hn | hn <;> omega

theorem chain_of_all_nonws {t : List Char}
    (h : ∀ c ∈ t, BMT.pyIsWs c = false) :
    t.Chain' (fun a b => ¬(BMT.pyIsWs a = true ∧ BMT.pyIsWs b = true)) := by
  induction t with
  | nil => exact List.chain'_nil
  | cons c cs ih =>
    rw [List.chain'_cons']
    refine ⟨fun b _ hab => ?_, ih (fun d hd => h d (List.mem_cons_of_mem c hd))⟩
    rw [h c (List.mem_cons_self c cs)] at hab
    exact Bool.false_ne_true hab.1

theorem joinSpace_chain {ts : List (List Char)}
    (hne : ∀ t ∈ ts, t ≠ [])
    (hws : ∀ t ∈ ts, ∀ c ∈ t, BMT.pyIsWs c = false) :
    (BMT.joinSpace ts).Chain'
      (fun a b => ¬(BMT.pyIsWs a = true ∧ BMT.pyIsWs b = true)) := by
  induction ts with
  | nil => exact List.chain'_nil
  | cons t rest ih =>
    cases rest with
    | nil =>
      rw [joinSpace_single]
      exact chain_of_all_nonws (hws t (List.mem_cons_self t []))
    | cons t2 rest2 =>
      rw [joinSpace_cons2]
      rw [List.chain'_append]
      refine ⟨chain_of_all_nonws (hws t (List.mem_cons_self t _)), ?_, ?_⟩
      · rw [List.chain'_cons']
        refine ⟨?_, ih (fun u hu => hne u (List.mem_cons_of_mem t hu))
          (fun u hu => hws u (List.mem_cons_of_mem t hu))⟩
        intro b hb hab
        rw [joinSpace_head (hne t2 (by simp))] at hb
        have ht2 := hne t2 (by simp)
        have hbt2 : b ∈ t2 := by
          cases t2 with
          | nil => exact absurd rfl ht2
          | cons c0 cs =>
            rw [List.head?_cons, Option.mem_some_iff] at hb
            rw [← hb]
            exact List.mem_cons_self c0 cs
        rw [hws t2 (by simp) b hbt2] at hab
        exact Bool.false_ne_true hab.2
      · intro a ha b hb hab
        have hat : a ∈ t := by
          rcases List.mem_of_mem_getLast? ha with h
          exact h
        rw [hws t (List.mem_cons_self t _) a hat] at hab
        exact Bool.false_ne_true hab.1

/-- On a space-joined list of nonempty whitespace-free tokens, `strip`
and whitespace collapsing are the identity. -/
theorem joinSpace_strip_collapse {ts : List (List Char)}
    (hne : ∀ t ∈ ts, t ≠ [])
    (hws : ∀ t ∈ ts, ∀ c ∈ t, BMT.pyIsWs c = false) :
    BMT.pyStrip (BMT.joinSpace ts) = BMT.joinSpace ts ∧
    BMT.collapseWs (BMT.joinSpace ts) = BMT.joinSpace ts := by
  constructor
  · cases ts with
    | nil => rfl
    | cons t rest =>
      refine pyStrip_eq_self ?_ ?_
      · intro c hc
        rw [joinSpace_head (hne t (List.mem_cons_self t rest))] at hc
        refine hws t (List.mem_cons_self t rest) c ?_
        cases t with
        | nil => cases hc
        | cons c0 cs =>
          rw [List.head?_cons, Option.some_inj] at hc
          rw [← hc]
          exact List.mem_cons_self c0 cs
      · intro c hc
        obtain ⟨u, hu, hlast⟩ := joinSpace_getLast hne (by simp)
        rw [hlast] at hc
        exact hws u hu c (List.mem_of_mem_getLast? hc)
  · exact collapseWs_eq_self (joinSpace_chain hne hws)

end TokenLemmas

section SplitPLemmas

theorem splitP_nil (sep : Char → Bool) : BMT.splitP sep [] = [] := by
  simp [BMT.splitP]

theorem splitP_cons_sep {sep : Char → Bool} {c : Char} (cs : List Char)
    (h : sep c = true) :
    BMT.splitP sep (c :: cs) = BMT.splitP sep cs := by
  rw [BMT.splitP, if_pos h]

theorem splitP_cons_nonsep {sep : Char → Bool} {c : Char} (cs : List Char)
    (h : sep c = false) :
    BMT.splitP sep (c :: cs) =
      (c :: cs.takeWhile (fun d => !sep d)) ::
        BMT.splitP sep (cs.dropWhile (fun d => !sep d)) := by
  rw [BMT.splitP, if_neg (by rw [h]; exact Bool.false_ne_true)]

theorem takeWhile_congr_mem {p q : Char → Bool} {l : List Char}
    (h : ∀ c ∈ l, p c = q c) : l.takeWhile p = l.takeWhile q := by
  induction l with
  | nil => rfl
  | cons c cs ih =>
    have hc := h c (List.mem_cons_self c cs)
    by_cases hp : p c = true
    · rw [List.takeWhile_cons_of_pos hp, List.takeWhile_cons_of_pos (hc ▸ hp),
        ih (fun d hd => h d (List.mem_cons_of_mem c hd))]
    · rw [List.takeWhile_cons_of_neg hp, List.takeWhile_cons_of_neg (hc ▸ hp)]

theorem dropWhile_congr_mem {p q : Char → Bool} {l : List Char}
    (h : ∀ c ∈ l, p c = q c) : l.dropWhile p = l.dropWhile q := by
  induction l with
  | nil => rfl
  | cons c cs ih =>
    have hc := h c (List.mem_cons_self c cs)
    by_cases hp : p c = true
    · rw [List.dropWhile_cons_of_pos hp, List.dropWhile_cons_of_pos (hc ▸ hp),
        ih (fun d hd => h d (List.mem_cons_of_mem c hd))]
    · rw [List.dropWhile_cons_of_neg hp, List.dropWhile_cons_of_neg (hc ▸ hp)]

theorem splitP_congr_aux {sep sep' : Char → Bool} :
    ∀ (n : ℕ) (z : List Char), z.length ≤ n → (∀ c ∈ z, sep c = sep' c) →
      BMT.splitP sep z = BMT.splitP sep' z := by
  intro n
  induction n with
  | zero =>
    intro z hz _
    have hznil : z = [] := List.length_eq_zero.mp (Nat.le_zero.mp hz)
    subst hznil
    rw [splitP_nil, splitP_nil]
  | succ n ih =>
    intro z hz h
    cases z with
    | nil => rw [splitP_nil, splitP_nil]
    | cons c cs =>
      have hc := h c (List.mem_cons_self c cs)
      by_cases hs : sep c = true
      · rw [splitP_cons_sep cs hs, splitP_cons_sep cs (hc ▸ hs)]
        exact ih cs (by simp at hz; omega)
          (fun d hd => h d (List.mem_cons_of_mem c hd))
      · have hs0 : sep c = false := by revert hs; cases sep c <;> simp
        rw [splitP_cons_nonsep cs hs0, splitP_cons_nonsep cs (hc ▸ hs0)]
        have htail : ∀ d ∈ cs, sep d = sep' d :=
          fun d hd => h d (List.mem_cons_of_mem c hd)
        have htw : cs.takeWhile (fun d => !sep d) =
            cs.takeWhile (fun d => !sep' d) :=
          takeWhile_congr_mem (fun d hd => by rw [htail d hd])
        have hdw : cs.dropWhile (fun d => !sep d) =
            cs.dropWhile (fun d => !sep' d) :=
          dropWhile_congr_mem (fun d hd => by rw [htail d hd])
        rw [htw, hdw]
        congr 1
        exact ih (cs.dropWhile (fun d => !sep' d))
          (le_trans (List.dropWhile_sublist _).length_le (by simp at hz; omega))
          (fun d hd => htail d ((List.dropWhile_sublist _).mem hd))

theorem splitP_congr_of_mem {sep sep' : Char → Bool} {z : List Char}
    (h : ∀ c ∈ z, sep c = sep' c) : BMT.splitP sep z = BMT.splitP sep' z :=
  splitP_congr_aux z.length z le_rfl h

theorem splitP_all_sep {sep : Char → Bool} {s : List Char}
    (h : ∀ c ∈ s, sep c = true) : BMT.splitP sep s = [] := by
  induction s with
  | nil => exact splitP_nil sep
  | cons c cs ih =>
    rw [splitP_cons_sep cs (h c (List.mem_cons_self c cs))]
    exact ih (fun d hd => h d (List.mem_cons_of_mem c hd))

theorem splitP_dropWhile {sep q : Char → Bool}
    (hq : ∀ c, q c = true → sep c = true) (z : List Char) :
    BMT.splitP sep (z.dropWhile q) = BMT.splitP sep z := by
  induction z with
  | nil => rfl
  | cons c cs ih =>
    by_cases hc : q c = true
    · rw [List.dropWhile_cons_of_pos hc, splitP_cons_sep cs (hq c hc), ih]
    · rw [List.dropWhile_cons_of_neg hc]

theorem takeWhile_append_allsep {sep : Char → Bool} {s : List Char}
    (hs : ∀ c ∈ s, sep c = true) (u : List Char) :
    (u ++ s).takeWhile (fun d => !sep d) =
      u.takeWhile (fun d => !sep d) := by
  induction u with
  | nil =>
    rw [List.nil_append]
    cases s with
    | nil => rfl
    | cons e es =>
      rw [List.takeWhile_nil,
        List.takeWhile_cons_of_neg (by simp [hs e (List.mem_cons_self e es)])]
  | cons a u' ih =>
    rw [List.cons_append]
    by_cases ha : sep a = true
    · rw [List.takeWhile_cons_of_neg (by simp [ha]),
        List.takeWhile_cons_of_neg (by simp [ha])]
    · have ha' : sep a = false := by revert ha; cases sep a <;> simp
      rw [List.takeWhile_cons_of_pos (by simp [ha']),
        List.takeWhile_cons_of_pos (by simp [ha']), ih]

theorem dropWhile_append_allsep {sep : Char → Bool} {s : List Char}
    (hs : ∀ c ∈ s, sep c = true) (u : List Char) :
    (u ++ s).dropWhile (fun d => !sep d) =
      u.dropWhile (fun d => !sep d) ++ s := by
  induction u with
  | nil =>
    rw [List.nil_append, List.dropWhile_nil, List.nil_append]
    cases s with
    | nil => rfl
    | cons e es =>
      rw [List.dropWhile_cons_of_neg
        (by simp [hs e (List.mem_cons_self e es)])]
  | cons a u' ih =>
    rw [List.cons_append]
    by_cases ha : sep a = true
    · rw [List.dropWhile_cons_of_neg (by simp [ha]),
        List.dropWhile_cons_of_neg (by simp [ha]), List.cons_append]
    · have ha' : sep a = false := by revert ha; cases sep a <;> simp
      rw [List.dropWhile_cons_of_pos (by simp [ha']),
        List.dropWhile_cons_of_pos (by simp [ha']), ih]

theorem splitP_append_allsep {sep : Char → Bool} {s : List Char}
    (hs : ∀ c ∈ s, sep c = true) :
    ∀ (n : ℕ) (u : List Char), u.length ≤ n →
      BMT.splitP sep (u ++ s) = BMT.splitP sep u := by
  intro n
  induction n with
  | zero =>
    intro u hu
    have hunil : u = [] := List.length_eq_zero.mp (Nat.le_zero.mp hu)
    subst hunil
    rw [List.nil_append, splitP_nil, splitP_all_sep hs]
  | succ n ih =>
    intro u hu
    cases u with
    | nil => rw [List.nil_append, splitP_nil, splitP_all_sep hs]
    | cons c u' =>
      rw [List.cons_append]
      by_cases hc : sep c = true
      · rw [splitP_cons_sep _ hc, splitP_cons_sep _ hc]
        exact ih u' (by simp at hu; omega)
      · have hc' : sep c = false := by revert hc; cases sep c <;> simp
        rw [splitP_cons_nonsep _ hc', splitP_cons_nonsep _ hc',
          takeWhile_append_allsep hs u', dropWhile_append_allsep hs u']
        congr 1
        exact ih (u'.dropWhile (fun d => !sep d))
          (le_trans (List.dropWhile_sublist _).length_le (by simp at hu; omega))

theorem splitP_pyStrip {sep : Char → Bool}
    (hws : ∀ c, BMT.pyIsWs c = true → sep c = true) (z : List Char) :
    BMT.splitP sep (BMT.pyStrip z) = BMT.splitP sep z := by
  rw [BMT.pyStrip]
  have hdecomp : z.dropWhile BMT.pyIsWs =
      ((z.dropWhile BMT.pyIsWs).reverse.dropWhile BMT.pyIsWs).reverse ++
        ((z.dropWhile BMT.pyIsWs).reverse.takeWhile BMT.pyIsWs).reverse := by
    rw [← List.reverse_append, List.takeWhile_append_dropWhile,
      List.reverse_reverse]
  have hsuffix : ∀ c ∈ ((z.dropWhile BMT.pyIsWs).reverse.takeWhile
      BMT.pyIsWs).reverse, sep c = true := by
    intro c hc
    rw [List.mem_reverse] at hc
    exact hws c (List.mem_takeWhile_imp hc)
  calc BMT.splitP sep ((z.dropWhile BMT.pyIsWs).reverse.dropWhile
        BMT.pyIsWs).reverse
      = BMT.splitP sep (((z.dropWhile BMT.pyIsWs).reverse.dropWhile
          BMT.pyIsWs).reverse ++ ((z.dropWhile BMT.pyIsWs).reverse.takeWhile
          BMT.pyIsWs).reverse) :=
        (splitP_append_allsep hsuffix _ _ le_rfl).symm
    _ = BMT.splitP sep (z.dropWhile BMT.pyIsWs) := by rw [← hdecomp]
    _ = BMT.splitP sep z := splitP_dropWhile hws z

end SplitPLemmas

section SplitPCollapseMap

theorem splitP_collapse_aux {sep : Char → Bool}
    (hsep : ∀ c, BMT.pyIsWs c = true → sep c = true) :
    ∀ (n : ℕ) (z : List Char), z.length ≤ n →
      (BMT.collapseWs z).takeWhile (fun d => !sep d) =
          z.takeWhile (fun d => !sep d) ∧
        BMT.splitP sep ((BMT.collapseWs z).dropWhile (fun d => !sep d)) =
          BMT.splitP sep (z.dropWhile (fun d => !sep d)) ∧
        BMT.splitP sep (BMT.collapseWs z) = BMT.splitP sep z := by
  have hsp : sep ' ' = true := hsep ' ' (by decide)
  intro n
  induction n with
  | zero =>
    intro z hz
    have hznil : z = [] := List.length_eq_zero.mp (Nat.le_zero.mp hz)
    subst hznil
    rw [collapseWs_nil]
    exact ⟨rfl, rfl, rfl⟩
  | succ n ih =>
    intro z hz
    cases z with
    | nil =>
      rw [collapseWs_nil]
      exact ⟨rfl, rfl, rfl⟩
    | cons c cs =>
      by_cases hc : BMT.pyIsWs c = true
      · have hsc : sep c = true := hsep c hc
        cases cs with
        | nil =>
          rw [collapseWs_single]
          exact ⟨rfl, rfl, rfl⟩
        | cons d ds =>
          by_cases hd : BMT.pyIsWs d = true
          · rw [collapseWs_cons2_ws hc hd]
            have hlen : (ds.dropWhile BMT.pyIsWs).length ≤ n :=
              le_trans (List.dropWhile_sublist _).length_le
                (by simp at hz; omega)
            obtain ⟨ihQ, ihR, ihP⟩ := ih (ds.dropWhile BMT.pyIsWs) hlen
            refine ⟨?_, ?_, ?_⟩
            · rw [List.takeWhile_cons_of_neg (by simp [hsp]),
                List.takeWhile_cons_of_neg (by simp [hsc])]
            · rw [List.dropWhile_cons_of_neg (by simp [hsp]),
                List.dropWhile_cons_of_neg (by simp [hsc]),
                splitP_cons_sep _ hsp, splitP_cons_sep _ hsc,
                splitP_cons_sep _ (hsep d hd), ihP, splitP_dropWhile hsep]
            · rw [splitP_cons_sep _ hsp, splitP_cons_sep _ hsc,
                splitP_cons_sep _ (hsep d hd), ihP, splitP_dropWhile hsep]
          · have hd' : BMT.pyIsWs d = false := by
              revert hd; cases BMT.pyIsWs d <;> simp
            rw [collapseWs_cons2_nws hc hd']
            have hlen : (d :: ds).length ≤ n := by simp at hz ⊢; omega
            obtain ⟨ihQ, ihR, ihP⟩ := ih (d :: ds) hlen
            refine ⟨?_, ?_, ?_⟩
            · rw [List.takeWhile_cons_of_neg (by simp [hsc]),
                List.takeWhile_cons_of_neg (by simp [hsc])]
            · rw [List.dropWhile_cons_of_neg (by simp [hsc]),
                List.dropWhile_cons_of_neg (by simp [hsc]),
                splitP_cons_sep _ hsc, splitP_cons_sep _ hsc, ihP]
            · rw [splitP_cons_sep _ hsc, splitP_cons_sep _ hsc, ihP]
      · have hc' : BMT.pyIsWs c = false := by
          revert hc; cases BMT.pyIsWs c <;> simp
        rw [collapseWs_cons_nws hc']
        have hlen : cs.length ≤ n := by simp at hz; omega
        obtain ⟨ihQ, ihR, ihP⟩ := ih cs hlen
        by_cases hsc : sep c = true
        · refine ⟨?_, ?_, ?_⟩
          · rw [List.takeWhile_cons_of_neg (by simp [hsc]),
              List.takeWhile_cons_of_neg (by simp [hsc])]
          · rw [List.dropWhile_cons_of_neg (by simp [hsc]),
              List.dropWhile_cons_of_neg (by simp [hsc]),
              splitP_cons_sep _ hsc, splitP_cons_sep _ hsc, ihP]
          · rw [splitP_cons_sep _ hsc, splitP_cons_sep _ hsc, ihP]
        · have hsc' : sep c = false := by revert hsc; cases sep c <;> simp
          refine ⟨?_, ?_, ?_⟩
          · rw [List.takeWhile_cons_of_pos (by simp [hsc']),
              List.takeWhile_cons_of_pos (by simp [hsc']), ihQ]
          · rw [List.dropWhile_cons_of_pos (by simp [hsc']),
              List.dropWhile_cons_of_pos (by simp [hsc']), ihR]
          · rw [splitP_cons_nonsep _ hsc', splitP_cons_nonsep _ hsc', ihQ,
              ihR]

theorem splitP_collapseWs {sep : Char → Bool}
    (hsep : ∀ c, BMT.pyIsWs c = true → sep c = true) (z : List Char) :
    BMT.splitP sep (BMT.collapseWs z) = BMT.splitP sep z :=
  (splitP_collapse_aux hsep z.length z le_rfl).2.2

theorem splitP_map_aux {sep sep' : Char → Bool} {g : Char → Char}
    (hg1 : ∀ c, sep (g c) = sep' c)
    (hg2 : ∀ c, sep' c = false → g c = c) :
    ∀ (n : ℕ) (z : List Char), z.length ≤ n →
      BMT.splitP sep (z.map g) = BMT.splitP sep' z := by
  intro n
  induction n with
  | zero =>
    intro z hz
    have hznil : z = [] := List.length_eq_zero.mp (Nat.le_zero.mp hz)
    subst hznil
    rw [List.map_nil, splitP_nil, splitP_nil]
  | succ n ih =>
    intro z hz
    cases z with
    | nil => rw [List.map_nil, splitP_nil, splitP_nil]
    | cons c cs =>
      rw [List.map_cons]
      by_cases hc : sep' c = true
      · rw [splitP_cons_sep _ (by rw [hg1 c]; exact hc),
          splitP_cons_sep _ hc]
        exact ih cs (by simp at hz; omega)
      · have hc' : sep' c = false := by revert hc; cases sep' c <;> simp
        have hgc : g c = c := hg2 c hc'
        have hsc : sep c = false := by rw [← hgc, hg1 c]; exact hc'
        rw [hgc, splitP_cons_nonsep _ hsc, splitP_cons_nonsep _ hc']
        have hpq : ((fun d => !sep d) ∘ g) = (fun d => !sep' d) := by
          funext d
          simp only [Function.comp]
          rw [hg1 d]
        have htw : (cs.map g).takeWhile (fun d => !sep d) =
            cs.takeWhile (fun d => !sep' d) := by
          rw [List.takeWhile_map, hpq]
          refine map_id_of_fixed (fun d hd => hg2 d ?_)
          have hmem := List.mem_takeWhile_imp hd
          revert hmem
          cases sep' d <;> simp
        have hdw : (cs.map g).dropWhile (fun d => !sep d) =
            (cs.dropWhile (fun d => !sep' d)).map g := by
          rw [List.dropWhile_map, hpq]
        rw [htw, hdw]
        congr 1
        exact ih (cs.dropWhile (fun d => !sep' d))
          (le_trans (List.dropWhile_sublist _).length_le (by simp at hz; omega))

theorem splitP_map {sep sep' : Char → Bool} {g : Char → Char}
    (hg1 : ∀ c, sep (g c) = sep' c)
    (hg2 : ∀ c, sep' c = false → g c = c) (z : List Char) :
    BMT.splitP sep (z.map g) = BMT.splitP sep' z :=
  splitP_map_aux hg1 hg2 z.length z le_rfl

end SplitPCollapseMap

section SplitSpaceBridge

theorem dropWhile_head_false {p : Char → Bool} :
    ∀ {l : List Char} {e : Char} {r : List Char},
      l.dropWhile p = e :: r → p e = false := by
  intro l
  induction l with
  | nil => intro e r h; cases h
  | cons a l' ih =>
    intro e r h
    by_cases ha : p a = true
    · rw [List.dropWhile_cons_of_pos ha] at h
      exact ih h
    · rw [List.dropWhile_cons_of_neg ha] at h
      injection h with h1 _
      rw [← h1]
      revert ha
      cases p a <;> simp

theorem splitSpace_eq_single {z : List Char}
    (h : z.dropWhile (fun d => !BMT.spaceSep d) = []) :
    BMT.splitSpace z = [z.takeWhile (fun d => !BMT.spaceSep d)] := by
  induction z with
  | nil => rfl
  | cons c cs ih =>
    by_cases hc : c = ' '
    · rw [List.dropWhile_cons_of_neg (by simp [BMT.spaceSep, hc])] at h
      cases h
    · rw [List.dropWhile_cons_of_pos (by simp [BMT.spaceSep, hc])] at h
      rw [BMT.splitSpace, if_neg hc, ih h,
        List.takeWhile_cons_of_pos (by simp [BMT.spaceSep, hc])]

theorem splitSpace_eq_cons {z : List Char} {e : Char} {r : List Char}
    (h : z.dropWhile (fun d => !BMT.spaceSep d) = e :: r) :
    BMT.splitSpace z =
      z.takeWhile (fun d => !BMT.spaceSep d) :: BMT.splitSpace r := by
  induction z with
  | nil => cases h
  | cons c cs ih =>
    by_cases hc : c = ' '
    · rw [List.dropWhile_cons_of_neg (by simp [BMT.spaceSep, hc])] at h
      injection h with h1 h2
      subst hc
      rw [BMT.splitSpace, if_pos rfl,
        List.takeWhile_cons_of_neg (by simp [BMT.spaceSep]), ← h2]
    · rw [List.dropWhile_cons_of_pos (by simp [BMT.spaceSep, hc])] at h
      rw [BMT.splitSpace, if_neg hc, ih h,
        List.takeWhile_cons_of_pos (by simp [BMT.spaceSep, hc])]

theorem splitSpace_filter_aux :
    ∀ (n : ℕ) (z : List Char), z.length ≤ n →
      (BMT.splitSpace z).filter (fun t => !t.isEmpty) =
        BMT.splitP BMT.spaceSep z := by
  intro n
  induction n with
  | zero =>
    intro z hz
    have hznil : z = [] := List.length_eq_zero.mp (Nat.le_zero.mp hz)
    subst hznil
    rw [splitP_nil]
    rfl
  | succ n ih =>
    intro z hz
    cases z with
    | nil =>
      rw [splitP_nil]
      rfl
    | cons c cs =>
      by_cases hc : c = ' '
      · subst hc
        rw [BMT.splitSpace, if_pos rfl, List.filter_cons_of_neg (by simp),
          splitP_cons_sep _ (by simp [BMT.spaceSep])]
        exact ih cs (by simp at hz; omega)
      · have hcs : BMT.spaceSep c = false := by simp [BMT.spaceSep, hc]
        rw [splitP_cons_nonsep _ hcs]
        have hd0 : (c :: cs).dropWhile (fun d => !BMT.spaceSep d) =
            cs.dropWhile (fun d => !BMT.spaceSep d) := by
          rw [List.dropWhile_cons_of_pos (by simp [hcs])]
        cases hdw : cs.dropWhile (fun d => !BMT.spaceSep d) with
        | nil =>
          rw [splitSpace_eq_single (hd0.trans hdw), splitP_nil,
            List.takeWhile_cons_of_pos (by simp [hcs]),
            List.filter_cons_of_pos (by simp), List.filter_nil]
        | cons e r =>
          rw [splitSpace_eq_cons (hd0.trans hdw),
            List.takeWhile_cons_of_pos (by simp [hcs]),
            List.filter_cons_of_pos (by simp)]
          have he0 := dropWhile_head_false hdw
          have he : BMT.spaceSep e = true := by
            revert he0
            cases BMT.spaceSep e <;> simp
          rw [splitP_cons_sep _ he]
          have hrlen : r.length ≤ n := by
            have h1 : (cs.dropWhile (fun d => !BMT.spaceSep d)).length ≤
                cs.length := (List.dropWhile_sublist _).length_le
            rw [hdw] at h1
            simp at h1 hz
            omega
          rw [ih r hrlen]

theorem filter_splitSpace {F : List Char → Bool} (hF : F [] = false)
    (z : List Char) :
    (BMT.splitSpace z).filter F = (BMT.splitP BMT.spaceSep z).filter F := by
  rw [← splitSpace_filter_aux z.length z le_rfl, List.filter_filter]
  refine (List.filter_congr ?_).symm
  intro t _
  cases t with
  | nil =>
    rw [hF]
    rfl
  | cons a as => simp

end SplitSpaceBridge

section NlCommute

theorem pyUpper_eq_nl {c : Char} (h : BMT.pyUpper c = '\n') : c = '\n' := by
  by_cases hlow : 97 ≤ c.toNat ∧ c.toNat ≤ 122
  · have hu := pyUpper_lower_toNat c hlow
    rw [h, nl_toNat] at hu
    omega
  · rcases hfind : BMT.accentTable.find? (fun p => p.1 = c) with _ | p
    · have hpu : BMT.pyUpper c = c := by
        rw [BMT.pyUpper, if_neg hlow, hfind]
      rw [hpu] at h
      exact h
    · have hpu : BMT.pyUpper c = p.2.1 := by
        rw [BMT.pyUpper, if_neg hlow, hfind]
      rw [hpu] at h
      have hpmem := List.mem_of_find?_eq_some hfind
      fin_cases hpmem <;> exact absurd h (by decide)

theorem accentFold_nl {c d : Char} (hd : d ∈ BMT.accentFold c)
    (hnl : d = '\n') : c = '\n' := by
  by_cases hascii : c.toNat < 128
  · rw [accentFold_ascii c hascii, List.mem_singleton] at hd
    rw [← hd, hnl]
  · rw [BMT.accentFold, if_neg hascii] at hd
    rcases hfind : BMT.accentTable.find?
        (fun p => decide (p.1 = c ∨ p.2.1 = c)) with _ | q
    · rw [hfind] at hd
      exact absurd hd (List.not_mem_nil d)
    · rw [hfind] at hd
      have hqmem := List.mem_of_find?_eq_some hfind
      change d ∈ (if q.1 = c then [BMT.pyLower q.2.2] else [q.2.2]) at hd
      subst hnl
      by_cases hqc : q.1 = c
      · rw [if_pos hqc, List.mem_singleton] at hd
        fin_cases hqmem <;> exact absurd hd (by decide)
      · rw [if_neg hqc, List.mem_singleton] at hd
        fin_cases hqmem <;> exact absurd hd (by decide)

theorem nlToSpace_map_pyUpper (x : List Char) :
    (BMT.nlToSpace x).map BMT.pyUpper = BMT.nlToSpace (x.map BMT.pyUpper) := by
  rw [BMT.nlToSpace, BMT.nlToSpace, List.map_map, List.map_map]
  refine List.map_congr_left (fun c _ => ?_)
  simp only [Function.comp]
  by_cases hc : c = '\n'
  · rw [if_pos hc, hc, show BMT.pyUpper ' ' = ' ' from by decide,
      show BMT.pyUpper '\n' = '\n' from by decide, if_pos rfl]
  · rw [if_neg hc, if_neg (fun h => hc (pyUpper_eq_nl h))]

theorem accentFold_nlToSpace (c : Char) :
    BMT.accentFold (if c = '\n' then ' ' else c) =
      (BMT.accentFold c).map (fun d => if d = '\n' then ' ' else d) := by
  by_cases hc : c = '\n'
  · rw [if_pos hc, hc]
    decide
  · rw [if_neg hc]
    refine (map_id_of_fixed ?_).symm
    intro d hd
    rw [if_neg (fun hdn => hc (accentFold_nl hd hdn))]

theorem unidecodeStr_nlToSpace (y : List Char) :
    BMT.unidecodeStr (BMT.nlToSpace y) =
      BMT.nlToSpace (BMT.unidecodeStr y) := by
  rw [BMT.unidecodeStr, BMT.unidecodeStr, BMT.nlToSpace, BMT.nlToSpace]
  induction y with
  | nil => rfl
  | cons c cs ih =>
    rw [List.map_cons, List.flatMap_cons, List.flatMap_cons, List.map_append,
      ih, accentFold_nlToSpace]

end NlCommute

section BaseCleanTokens

/-- Master tokenization lemma: the whitespace-split of the cleaned string
is the split of the accent-folded upper-cased input on the class
whitespace-or-punctuation. -/
theorem splitWs_baseClean (P : Char → Bool) (x : List Char) :
    BMT.splitWs (BMT.baseClean P x) =
      BMT.splitP (BMT.wsOrPunct P) (BMT.unidecodeStr (x.map BMT.pyUpper)) := by
  have hg1 : ∀ c, BMT.pyIsWs (if P c then ' ' else c) = BMT.wsOrPunct P c := by
    intro c
    rw [BMT.wsOrPunct]
    by_cases hPc : P c = true
    · rw [if_pos hPc, hPc, Bool.or_true]
      decide
    · have hPc' : P c = false := by revert hPc; cases P c <;> simp
      rw [if_neg (by rw [hPc']; exact Bool.false_ne_true), hPc',
        Bool.or_false]
  have hg2 : ∀ c, BMT.wsOrPunct P c = false →
      (if P c then ' ' else c) = c := by
    intro c hc
    rw [BMT.wsOrPunct] at hc
    rcases Bool.or_eq_false_iff.mp hc with ⟨_, hP⟩
    rw [if_neg (by rw [hP]; exact Bool.false_ne_true)]
  have hwsub : ∀ c, BMT.pyIsWs c = true → BMT.wsOrPunct P c = true := by
    intro c hc
    rw [BMT.wsOrPunct, hc, Bool.true_or]
  have hh1 : ∀ c, BMT.wsOrPunct P (if c = '\n' then ' ' else c) =
      BMT.wsOrPunct P c := by
    intro c
    by_cases hc : c = '\n'
    · rw [if_pos hc, hc, BMT.wsOrPunct, BMT.wsOrPunct,
        show BMT.pyIsWs ' ' = true from by decide,
        show BMT.pyIsWs '\n' = true from by decide, Bool.true_or,
        Bool.true_or]
    · rw [if_neg hc]
  have hh2 : ∀ c, BMT.wsOrPunct P c = false →
      (if c = '\n' then ' ' else c) = c := by
    intro c hc
    rw [if_neg]
    intro he
    rw [he, BMT.wsOrPunct, show BMT.pyIsWs '\n' = true from by decide,
      Bool.true_or] at hc
    exact Bool.noConfusion hc
  rw [BMT.splitWs, BMT.baseClean, BMT.punctToSpace, splitP_map hg1 hg2,
    splitP_collapseWs hwsub, nlToSpace_map_pyUpper, unidecodeStr_nlToSpace,
    BMT.nlToSpace, splitP_map hh1 hh2]

/-- Pass-two reduction: on a string whose characters are already clean
(fixed by `pyUpper` and `accentFold`, outside the punctuation class), the
token pipeline is plain whitespace splitting. -/
theorem splitP_clean {P : Char → Bool} {y : List Char}
    (hclean : ∀ c ∈ y,
      BMT.pyUpper c = c ∧ BMT.accentFold c = [c] ∧ P c = false) :
    BMT.splitP (BMT.wsOrPunct P) (BMT.unidecodeStr (y.map BMT.pyUpper)) =
      BMT.splitWs y := by
  rw [map_id_of_fixed (fun c hc => (hclean c hc).1),
    unidecodeStr_id_of_fixed (fun c hc => (hclean c hc).2.1), BMT.splitWs]
  refine splitP_congr_of_mem (fun c hc => ?_)
  rw [BMT.wsOrPunct, (hclean c hc).2.2, Bool.or_false]

end BaseCleanTokens

section JoinTokens

theorem takeWhile_all_nonsep {sep : Char → Bool} {u : List Char}
    (h : ∀ c ∈ u, sep c = false) : u.takeWhile (fun d => !sep d) = u := by
  induction u with
  | nil => rfl
  | cons a u' ih =>
    rw [List.takeWhile_cons_of_pos
        (by simp [h a (List.mem_cons_self a u')]),
      ih (fun c hc => h c (List.mem_cons_of_mem a hc))]

theorem dropWhile_all_nonsep {sep : Char → Bool} {u : List Char}
    (h : ∀ c ∈ u, sep c = false) : u.dropWhile (fun d => !sep d) = [] := by
  induction u with
  | nil => rfl
  | cons a u' ih =>
    rw [List.dropWhile_cons_of_pos
        (by simp [h a (List.mem_cons_self a u')]),
      ih (fun c hc => h c (List.mem_cons_of_mem a hc))]

theorem takeWhile_nonsep_append {sep : Char → Bool} {u : List Char}
    (h : ∀ c ∈ u, sep c = false) (hsp : sep ' ' = true) (r : List Char) :
    (u ++ ' ' :: r).takeWhile (fun d => !sep d) = u := by
  induction u with
  | nil =>
    rw [List.nil_append, List.takeWhile_cons_of_neg (by simp [hsp])]
  | cons a u' ih =>
    rw [List.cons_append,
      List.takeWhile_cons_of_pos
        (by simp [h a (List.mem_cons_self a u')]),
      ih (fun c hc => h c (List.mem_cons_of_mem a hc))]

theorem dropWhile_nonsep_append {sep : Char → Bool} {u : List Char}
    (h : ∀ c ∈ u, sep c = false) (hsp : sep ' ' = true) (r : List Char) :
    (u ++ ' ' :: r).dropWhile (fun d => !sep d) = ' ' :: r := by
  induction u with
  | nil =>
    rw [List.nil_append, List.dropWhile_cons_of_neg (by simp [hsp])]
  | cons a u' ih =>
    rw [List.cons_append,
      List.dropWhile_cons_of_pos
        (by simp [h a (List.mem_cons_self a u')]),
      ih (fun c hc => h c (List.mem_cons_of_mem a hc))]

theorem splitP_all_nonsep {sep : Char → Bool} {t : List Char}
    (hne : t ≠ []) (h : ∀ c ∈ t, sep c = false) :
    BMT.splitP sep t = [t] := by
  cases t with
  | nil => exact absurd rfl hne
  | cons c cs =>
    rw [splitP_cons_nonsep _ (h c (List.mem_cons_self c cs)),
      takeWhile_all_nonsep (fun d hd => h d (List.mem_cons_of_mem c hd)),
      dropWhile_all_nonsep (fun d hd => h d (List.mem_cons_of_mem c hd)),
      splitP_nil]

theorem splitP_token_append {sep : Char → Bool} {t r : List Char}
    (hne : t ≠ []) (h : ∀ c ∈ t, sep c = false) (hsp : sep ' ' = true) :
    BMT.splitP sep (t ++ ' ' :: r) = t :: BMT.splitP sep r := by
  cases t with
  | nil => exact absurd rfl hne
  | cons c cs =>
    rw [List.cons_append,
      splitP_cons_nonsep _ (h c (List.mem_cons_self c cs)),
      takeWhile_nonsep_append
        (fun d hd => h d (List.mem_cons_of_mem c hd)) hsp,
      dropWhile_nonsep_append
        (fun d hd => h d (List.mem_cons_of_mem c hd)) hsp,
      splitP_cons_sep _ hsp]

theorem splitWs_joinSpace {ts : List (List Char)}
    (hne : ∀ t ∈ ts, t ≠ [])
    (hws : ∀ t ∈ ts, ∀ c ∈ t, BMT.pyIsWs c = false) :
    BMT.splitWs (BMT.joinSpace ts) = ts := by
  induction ts with
  | nil =>
    rw [BMT.splitWs]
    exact splitP_nil BMT.pyIsWs
  | cons t rest ih =>
    cases rest with
    | nil =>
      rw [joinSpace_single, BMT.splitWs]
      exact splitP_all_nonsep (hne t (by simp)) (hws t (by simp))
    | cons t2 rest2 =>
      rw [joinSpace_cons2, BMT.splitWs,
        splitP_token_append (hne t (by simp)) (hws t (by simp)) (by decide),
        ← BMT.splitWs,
        ih (fun u hu => hne u (List.mem_cons_of_mem t hu))
          (fun u hu => hws u (List.mem_cons_of_mem t hu))]

end JoinTokens

section SanitizeChars

theorem splitWs_punctToSpace (P : Char → Bool) (v : List Char) :
    BMT.splitWs (BMT.punctToSpace P v) = BMT.splitP (BMT.wsOrPunct P) v := by
  have hg1 : ∀ c, BMT.pyIsWs (if P c then ' ' else c) = BMT.wsOrPunct P c := by
    intro c
    rw [BMT.wsOrPunct]
    by_cases hPc : P c = true
    · rw [if_pos hPc, hPc, Bool.or_true]
      decide
    · have hPc' : P c = false := by revert hPc; cases P c <;> simp
      rw [if_neg (by rw [hPc']; exact Bool.false_ne_true), hPc',
        Bool.or_false]
  have hg2 : ∀ c, BMT.wsOrPunct P c = false →
      (if P c then ' ' else c) = c := by
    intro c hc
    rw [BMT.wsOrPunct] at hc
    rcases Bool.or_eq_false_iff.mp hc with ⟨_, hP⟩
    rw [if_neg (by rw [hP]; exact Bool.false_ne_true)]
  rw [BMT.splitWs, BMT.punctToSpace, splitP_map hg1 hg2]

theorem baseClean_chars_clean {P : Char → Bool} (hPsp : P ' ' = false)
    {x : List Char} {c : Char} (hc : c ∈ BMT.baseClean P x) :
    BMT.pyUpper c = c ∧ BMT.accentFold c = [c] ∧ P c = false := by
  rw [BMT.baseClean] at hc
  rcases mem_punctToSpace hc with h | ⟨h, hP⟩
  · rw [h]
    exact ⟨by decide, by decide, hPsp⟩
  · rcases mem_collapseWs h with h2 | h2
    · rw [h2]
      exact ⟨by decide, by decide, hPsp⟩
    · rw [BMT.unidecodeStr, List.mem_flatMap] at h2
      obtain ⟨c0, hc0, hcf⟩ := h2
      rw [List.mem_map] at hc0
      obtain ⟨c1, _, hc10⟩ := hc0
      rw [← hc10] at hcf
      obtain ⟨hs1, hs2, _, _⟩ := mem_fold_upper_stable c1 c hcf
      exact ⟨hs1, hs2, hP⟩

theorem baseClean_ws_space {P : Char → Bool} {x : List Char}
    (hx : BMT.wsLimited x) {c : Char} (hc : c ∈ BMT.baseClean P x)
    (hw : BMT.pyIsWs c = true) : c = ' ' := by
  rw [BMT.baseClean] at hc
  rcases mem_punctToSpace hc with h | ⟨h, _⟩
  · exact h
  · rcases mem_collapseWs h with h2 | h2
    · exact h2
    · rw [BMT.unidecodeStr, List.mem_flatMap] at h2
      obtain ⟨c0, hc0, hcf⟩ := h2
      rw [List.mem_map] at hc0
      obtain ⟨c1, hc1, hc10⟩ := hc0
      rw [← hc10] at hcf
      obtain ⟨_, _, hws_eq, _⟩ := mem_fold_upper_stable c1 c hcf
      have hc1w : BMT.pyIsWs c1 = true := by rw [← hws_eq]; exact hw
      have hc1sp : c1 = ' ' := wsLimited_nl hx c1 hc1 hc1w
      rw [hc1sp] at hcf
      rw [show BMT.pyUpper ' ' = ' ' from by decide,
        show BMT.accentFold ' ' = [' '] from by decide,
        List.mem_singleton] at hcf
      exact hcf

theorem sanitize_token_nonws {isP : Char → Bool} {x : List Char}
    (hx : BMT.wsLimited x) {t : List Char} {c : Char}
    (ht : t ∈ BMT.splitSpace (BMT.pyStrip (BMT.baseClean isP x)))
    (hc : c ∈ t) : BMT.pyIsWs c = false := by
  obtain ⟨hmem, hcs⟩ := mem_splitSpace_chars ht hc
  by_cases hw : BMT.pyIsWs c = true
  · exact absurd (baseClean_ws_space hx (mem_pyStrip hmem) hw) hcs
  · revert hw
    cases BMT.pyIsWs c <;> simp

end SanitizeChars

section SanitizeUnfold

theorem san04_nors_string (stem : List Char → List Char)
    (sw : List (List Char)) (x : List Char) :
    BMT.sanitize04 stem sw false false x =
      BMT.pyStrip (BMT.baseClean BMT.isPunct04 x) := by
  simp [BMT.sanitize04]

theorem san03_nors_string (sw : List (List Char)) (x : List Char) :
    BMT.sanitize03 sw false x =
      BMT.pyStrip (BMT.baseClean BMT.isPunct03 x) := by
  simp [BMT.sanitize03]

theorem san04_rs_string (stem : List Char → List Char)
    (sw : List (List Char)) (x : List Char) :
    BMT.sanitize04 stem sw true false x =
      BMT.collapseWs (BMT.pyStrip (BMT.joinSpace
        (((BMT.dropStopwords sw (BMT.splitSpace (BMT.pyStrip
          (BMT.baseClean BMT.isPunct04 x)))).filter
            (fun w => BMT.pyIsAlphaTok w)).filter
          (fun w => 2 < w.length)))) := by
  simp [BMT.sanitize04]

theorem san03_rs_string (sw : List (List Char)) (x : List Char) :
    BMT.sanitize03 sw true x =
      BMT.collapseWs (BMT.pyStrip (BMT.joinSpace
        (((BMT.dropStopwords sw (BMT.splitSpace (BMT.pyStrip
          (BMT.baseClean BMT.isPunct03 x)))).filter
            (fun w => !BMT.pyIsDigitTok w)).filter
          (fun w => 2 < w.length)))) := by
  simp [BMT.sanitize03]

end SanitizeUnfold

section SanitizeTokens

theorem mem_filtered_tokens {sw : List (List Char)}
    {pmid : List Char → Bool} {S0 : List (List Char)} {t : List Char}
    (ht : t ∈ ((BMT.dropStopwords sw S0).filter pmid).filter
      (fun w => 2 < w.length)) :
    t ∈ S0 ∧ ¬ t ∈ sw ∧ pmid t = true ∧ 2 < t.length := by
  have h1 := List.of_mem_filter ht
  have ht2 := List.mem_of_mem_filter ht
  have h2 : pmid t = true := List.of_mem_filter ht2
  have ht3 := List.mem_of_mem_filter ht2
  rw [dropStopwords_eq_filter] at ht3
  have h3 := List.of_mem_filter ht3
  have ht4 := List.mem_of_mem_filter ht3
  exact ⟨ht4, of_decide_eq_true h3, h2, of_decide_eq_true h1⟩

theorem filtered_tokens_ne_nil {sw : List (List Char)}
    {pmid : List Char → Bool} {S0 : List (List Char)} :
    ∀ t ∈ ((BMT.dropStopwords sw S0).filter pmid).filter
      (fun w => 2 < w.length), t ≠ [] := by
  intro t ht hnil
  obtain ⟨_, _, _, hlen⟩ := mem_filtered_tokens ht
  rw [hnil] at hlen
  simp at hlen

theorem wsTokens_rejoin {ts : List (List Char)}
    (hne : ∀ t ∈ ts, t ≠ [])
    (hws : ∀ t ∈ ts, ∀ c ∈ t, BMT.pyIsWs c = false) :
    BMT.wsTokens (BMT.collapseWs (BMT.pyStrip (BMT.joinSpace ts))) = ts := by
  rw [BMT.wsTokens, BMT.splitWs, splitP_collapseWs (fun c h => h),
    splitP_pyStrip (fun c h => h), ← BMT.splitWs]
  exact splitWs_joinSpace hne hws

theorem san04_rs_tokens (stem : List Char → List Char)
    (sw : List (List Char)) (x : List Char) :
    BMT.wsTokens (BMT.sanitize04 stem sw true false x) =
      ((BMT.dropStopwords sw (BMT.splitSpace (BMT.pyStrip
        (BMT.baseClean BMT.isPunct04 x)))).filter
          (fun w => BMT.pyIsAlphaTok w)).filter (fun w => 2 < w.length) := by
  rw [san04_rs_string]
  refine wsTokens_rejoin filtered_tokens_ne_nil ?_
  intro t ht c hc
  obtain ⟨_, _, halpha, _⟩ := mem_filtered_tokens ht
  rw [BMT.pyIsAlphaTok, Bool.and_eq_true, List.all_eq_true] at halpha
  exact alpha_not_ws (halpha.2 c hc)

theorem san03_rs_tokens (sw : List (List Char)) {x : List Char}
    (hx : BMT.wsLimited x) :
    BMT.wsTokens (BMT.sanitize03 sw true x) =
      ((BMT.dropStopwords sw (BMT.splitSpace (BMT.pyStrip
        (BMT.baseClean BMT.isPunct03 x)))).filter
          (fun w => !BMT.pyIsDigitTok w)).filter (fun w => 2 < w.length) := by
  rw [san03_rs_string]
  refine wsTokens_rejoin filtered_tokens_ne_nil ?_
  intro t ht c hc
  obtain ⟨hbase, _, _, _⟩ := mem_filtered_tokens ht
  exact sanitize_token_nonws hx hbase hc

theorem san_nors_idem {P : Char → Bool} (hPsp : P ' ' = false)
    (x : List Char) :
    BMT.splitWs (BMT.pyStrip (BMT.baseClean P (BMT.pyStrip
      (BMT.baseClean P x)))) =
      BMT.splitWs (BMT.pyStrip (BMT.baseClean P x)) := by
  have hclean : ∀ c ∈ BMT.pyStrip (BMT.baseClean P x),
      BMT.pyUpper c = c ∧ BMT.accentFold c = [c] ∧ P c = false :=
    fun c hc => baseClean_chars_clean hPsp (mem_pyStrip hc)
  rw [BMT.splitWs, splitP_pyStrip (fun c h => h), ← BMT.splitWs,
    splitWs_baseClean, splitP_clean hclean]

end SanitizeTokens

section RsIdem

theorem rs_pass2_tokens {P : Char → Bool} {sw : List (List Char)}
    {pmid : List Char → Bool} {S0 : List (List Char)}
    (hPsp : P ' ' = false)
    (hws : ∀ t ∈ ((BMT.dropStopwords sw S0).filter pmid).filter
      (fun w => 2 < w.length), ∀ c ∈ t, BMT.pyIsWs c = false)
    (hclean : ∀ t ∈ ((BMT.dropStopwords sw S0).filter pmid).filter
      (fun w => 2 < w.length), ∀ c ∈ t,
      BMT.pyUpper c = c ∧ BMT.accentFold c = [c] ∧ c ≠ '\n' ∧
        P c = false ∧ c ≠ ' ') :
    ((BMT.dropStopwords sw (BMT.splitSpace (BMT.pyStrip (BMT.baseClean P
      (BMT.collapseWs (BMT.pyStrip (BMT.joinSpace
        (((BMT.dropStopwords sw S0).filter pmid).filter
          (fun w => 2 < w.length))))))))).filter pmid).filter
      (fun w => 2 < w.length) =
    ((BMT.dropStopwords sw S0).filter pmid).filter
      (fun w => 2 < w.length) := by
  have hne : ∀ t ∈ ((BMT.dropStopwords sw S0).filter pmid).filter
      (fun w => 2 < w.length), t ≠ [] := filtered_tokens_ne_nil
  have hsc := joinSpace_strip_collapse hne hws
  have hjchars : ∀ c ∈ BMT.joinSpace (((BMT.dropStopwords sw
      S0).filter pmid).filter (fun w => 2 < w.length)),
      BMT.pyUpper c = c ∧ BMT.accentFold c = [c] ∧ c ≠ '\n' ∧
        P c = false := by
    intro c hc
    rcases mem_joinSpace hc with h | ⟨t, ht, hct⟩
    · rw [h]
      exact ⟨by decide, by decide, by decide, hPsp⟩
    · obtain ⟨h1, h2, h3, h4, _⟩ := hclean t ht c hct
      exact ⟨h1, h2, h3, h4⟩
  have hbase : BMT.baseClean P (BMT.joinSpace (((BMT.dropStopwords sw
      S0).filter pmid).filter (fun w => 2 < w.length))) =
      BMT.joinSpace (((BMT.dropStopwords sw S0).filter pmid).filter
        (fun w => 2 < w.length)) := by
    rw [BMT.baseClean, nlToSpace_id_of_no_nl (fun c hc => (hjchars c hc).2.2.1),
      map_id_of_fixed (fun c hc => (hjchars c hc).1),
      unidecodeStr_id_of_fixed (fun c hc => (hjchars c hc).2.1), hsc.2,
      punctToSpace_id_of_no_punct P (fun c hc => (hjchars c hc).2.2.2)]
  rw [hsc.1, hsc.2, hbase, hsc.1]
  rcases hTc : ((BMT.dropStopwords sw S0).filter pmid).filter
      (fun w => 2 < w.length) with _ | ⟨t0, ts0⟩
  · rw [hTc, show BMT.joinSpace ([] : List (List Char)) = [] from rfl,
      show BMT.splitSpace ([] : List Char) = [[]] from rfl,
      dropStopwords_eq_filter, List.filter_filter, List.filter_filter,
      List.filter_cons_of_neg (by simp), List.filter_nil]
  · have hws' : ∀ t ∈ t0 :: ts0, ∀ c ∈ t, BMT.pyIsWs c = false :=
      hTc ▸ hws
    have hnospace : ∀ t ∈ t0 :: ts0, ' ' ∉ t :=
      fun t ht hsp => absurd (hws' t ht ' ' hsp) (by decide)
    rw [hTc, splitSpace_joinSpace (by simp) hnospace,
      dropStopwords_eq_filter]
    have hmemT : ∀ t ∈ t0 :: ts0, t ∈ S0 ∧ ¬ t ∈ sw ∧ pmid t = true ∧
        2 < t.length := by
      intro t ht
      rw [← hTc] at ht
      exact mem_filtered_tokens ht
    rw [List.filter_eq_self.mpr
      (fun t ht => decide_eq_true (hmemT t ht).2.1)]
    rw [List.filter_eq_self.mpr (fun t ht => (hmemT t ht).2.2.1)]
    rw [List.filter_eq_self.mpr
      (fun t ht => decide_eq_true (hmemT t ht).2.2.2)]

theorem san04_rs_idem (stem : List Char → List Char)
    (sw : List (List Char)) (x : List Char) :
    BMT.wsTokens (BMT.sanitize04 stem sw true false
      (BMT.sanitize04 stem sw true false x)) =
    BMT.wsTokens (BMT.sanitize04 stem sw true false x) := by
  have hws : ∀ t ∈ ((BMT.dropStopwords sw (BMT.splitSpace (BMT.pyStrip
      (BMT.baseClean BMT.isPunct04 x)))).filter
        (fun w => BMT.pyIsAlphaTok w)).filter (fun w => 2 < w.length),
      ∀ c ∈ t, BMT.pyIsWs c = false := by
    intro t ht c hc
    obtain ⟨_, _, halpha, _⟩ := mem_filtered_tokens ht
    rw [BMT.pyIsAlphaTok, Bool.and_eq_true, List.all_eq_true] at halpha
    exact alpha_not_ws (halpha.2 c hc)
  have hclean : ∀ t ∈ ((BMT.dropStopwords sw (BMT.splitSpace (BMT.pyStrip
      (BMT.baseClean BMT.isPunct04 x)))).filter
        (fun w => BMT.pyIsAlphaTok w)).filter (fun w => 2 < w.length),
      ∀ c ∈ t, BMT.pyUpper c = c ∧ BMT.accentFold c = [c] ∧ c ≠ '\n' ∧
        BMT.isPunct04 c = false ∧ c ≠ ' ' := by
    intro t ht c hc
    obtain ⟨hbase, _, _, _⟩ := mem_filtered_tokens ht
    obtain ⟨h1, h2, h3, h4, h5, _⟩ :=
      sanitize_token_char_props BMT.isPunct04 x hbase hc
    exact ⟨h1, h2, h3, h4, h5⟩
  rw [san04_rs_tokens stem sw (BMT.sanitize04 stem sw true false x),
    san04_rs_tokens stem sw x, san04_rs_string stem sw x]
  exact rs_pass2_tokens (by decide) hws hclean

theorem san03_rs_idem (sw : List (List Char)) {x : List Char}
    (hx : BMT.wsLimited x) :
    BMT.wsTokens (BMT.sanitize03 sw true (BMT.sanitize03 sw true x)) =
    BMT.wsTokens (BMT.sanitize03 sw true x) := by
  have hws : ∀ t ∈ ((BMT.dropStopwords sw (BMT.splitSpace (BMT.pyStrip
      (BMT.baseClean BMT.isPunct03 x)))).filter
        (fun w => !BMT.pyIsDigitTok w)).filter (fun w => 2 < w.length),
      ∀ c ∈ t, BMT.pyIsWs c = false := by
    intro t ht c hc
    obtain ⟨hbase, _, _, _⟩ := mem_filtered_tokens ht
    exact sanitize_token_nonws hx hbase hc
  have hclean : ∀ t ∈ ((BMT.dropStopwords sw (BMT.splitSpace (BMT.pyStrip
      (BMT.baseClean BMT.isPunct03 x)))).filter
        (fun w => !BMT.pyIsDigitTok w)).filter (fun w => 2 < w.length),
      ∀ c ∈ t, BMT.pyUpper c = c ∧ BMT.accentFold c = [c] ∧ c ≠ '\n' ∧
        BMT.isPunct03 c = false ∧ c ≠ ' ' := by
    intro t ht c hc
    obtain ⟨hbase, _, _, _⟩ := mem_filtered_tokens ht
    obtain ⟨h1, h2, h3, h4, h5, _⟩ :=
      sanitize_token_char_props BMT.isPunct03 x hbase hc
    exact ⟨h1, h2, h3, h4, h5⟩
  have hxy : BMT.wsLimited (BMT.sanitize03 sw true x) := by
    rw [san03_rs_string]
    intro c hc hw
    rcases mem_collapseWs hc with h | h
    · exact Or.inl h
    · rcases mem_joinSpace (mem_pyStrip h) with h3 | ⟨t, ht, hct⟩
      · exact Or.inl h3
      · rw [hws t ht c hct] at hw
        exact Bool.noConfusion hw
  rw [san03_rs_tokens sw hx, san03_rs_tokens sw hxy, san03_rs_string sw x]
  exact rs_pass2_tokens (by decide) hws hclean

end RsIdem

section NorsIdem

theorem san04_nors_idem (stem : List Char → List Char)
    (sw : List (List Char)) (x : List Char) :
    BMT.wsTokens (BMT.sanitize04 stem sw false false
      (BMT.sanitize04 stem sw false false x)) =
    BMT.wsTokens (BMT.sanitize04 stem sw false false x) := by
  rw [san04_nors_string stem sw x,
    san04_nors_string stem sw (BMT.pyStrip (BMT.baseClean BMT.isPunct04 x)),
    BMT.wsTokens, BMT.wsTokens]
  exact san_nors_idem (by decide) x

theorem san03_nors_idem (sw : List (List Char)) (x : List Char) :
    BMT.wsTokens (BMT.sanitize03 sw false (BMT.sanitize03 sw false x)) =
    BMT.wsTokens (BMT.sanitize03 sw false x) := by
  rw [san03_nors_string sw x,
    san03_nors_string sw (BMT.pyStrip (BMT.baseClean BMT.isPunct03 x)),
    BMT.wsTokens, BMT.wsTokens]
  exact san_nors_idem (by decide) x

end NorsIdem

section NormalizeClaims

/-- Claim C5 (amended).  For the `Trabalho_04` sanitizer with
`remove_stopwords` enabled and the stemmer disabled, on every input whose
whitespace consists of spaces and newlines (the whitespace of the
XML-extracted corpus), the resulting whitespace-token sequence is exactly
the claim's pipeline: accent-fold and upper-case, replace the fixed
punctuation set by spaces, then keep in order the tokens that are not
stopwords, purely alphabetic and at least 3 characters long.  The claim
does not hold of the `Trabalho_03` sanitizer, whose punctuation set lacks
`\ / + < > =` and which filters all-digit tokens instead of keeping only
alphabetic ones. -/
theorem claim_C5_normalize (stem : List Char → List Char)
    (sw : List (List Char)) (x : List Char) (hx : BMT.wsLimited x) :
    BMT.wsTokens (BMT.sanitize04 stem sw true false x) =
      BMT.normalizeSpecC5 sw x := by
  have hsep_eq : ∀ c ∈ BMT.pyStrip (BMT.baseClean BMT.isPunct04 x),
      BMT.spaceSep c = BMT.pyIsWs c := by
    intro c hc
    by_cases hsp : c = ' '
    · rw [hsp]
      decide
    · have hns : BMT.spaceSep c = false := by simp [BMT.spaceSep, hsp]
      have hnw : BMT.pyIsWs c = false := by
        by_cases hw : BMT.pyIsWs c = true
        · exact absurd (baseClean_ws_space hx (mem_pyStrip hc) hw) hsp
        · revert hw
          cases BMT.pyIsWs c <;> simp
      rw [hns, hnw]
  rw [san04_rs_tokens stem sw x, dropStopwords_eq_filter,
    List.filter_filter, List.filter_filter, filter_splitSpace (by rfl),
    splitP_congr_of_mem hsep_eq, splitP_pyStrip (fun c h => h),
    ← BMT.splitWs, splitWs_baseClean, BMT.normalizeSpecC5,
    splitWs_punctToSpace]
  refine List.filter_congr (fun w _ => ?_)
  by_cases h1 : (2:ℕ) < w.length <;> by_cases h2 : BMT.pyIsAlphaTok w = true <;>
    by_cases h3 : w ∈ sw <;>
    simp [h1, h2, h3]

/-- Claim C5, witness: the theorem applied to the stopword list `["THE"]`
and the input `"the cat"`, whose whitespace is a single space. -/
theorem claim_C5_normalize_witness :
    BMT.wsTokens (BMT.sanitize04 id [("THE").toList] true false
      ("the cat").toList) =
      BMT.normalizeSpecC5 [("THE").toList] ("the cat").toList :=
  claim_C5_normalize id [("THE").toList] ("the cat").toList
    (by rw [BMT.wsLimited]; decide)

/-- Claim C5, counterexample: the `Trabalho_03` sanitizer does not follow
the claim's pipeline — on `"a+b"` it keeps the token `A+B` (its
punctuation set has no `+` and `A+B` is neither all-digit nor short),
while the claim's pipeline replaces `+` by a space and drops the
non-alphabetic remains as too short. -/
theorem claim_C5_counterexample :
    BMT.wsTokens (BMT.sanitize03 [] true ("a+b").toList) ≠
      BMT.normalizeSpecC5 [] ("a+b").toList := by
  have h1 : BMT.sanitize03 [] true ("a+b").toList = ("A+B").toList := by
    simp [BMT.sanitize03, BMT.baseClean, BMT.collapseWs, BMT.pyIsWs,
      BMT.punctToSpace, BMT.unidecodeStr, BMT.accentFold, BMT.nlToSpace,
      BMT.pyUpper, BMT.pyStrip, BMT.splitSpace, BMT.dropStopwords,
      BMT.pyIsDigitTok, BMT.joinSpace, BMT.isPunct04, BMT.isPunct03,
      BMT.squote, BMT.accentTable]
  have h2 : BMT.wsTokens (("A+B").toList) = [("A+B").toList] := by
    simp [BMT.wsTokens, BMT.splitWs, BMT.splitP, BMT.pyIsWs]
  have h3 : BMT.normalizeSpecC5 [] ("a+b").toList = [] := by
    simp [BMT.normalizeSpecC5, BMT.splitWs, BMT.splitP, BMT.pyIsWs,
      BMT.punctToSpace, BMT.unidecodeStr, BMT.accentFold, BMT.pyUpper,
      BMT.pyIsAlphaTok, BMT.isPunct04, BMT.isPunct03, BMT.squote,
      BMT.accentTable]
  rw [h1, h2, h3]
  decide

/-- Claim C6 (amended).  Token-level idempotence of the normalizers with
the stemmer disabled: re-sanitizing the output of `Trabalho_04`'s
sanitizer yields the same whitespace-token sequence for every input, with
or without stopword removal; the same holds for `Trabalho_03` without
stopword removal, and with stopword removal on every input whose
whitespace consists of spaces and newlines.  (On other inputs the
`Trabalho_03` claim fails — see the counterexample — and with the
external stemmer enabled idempotence depends on the stemmer.) -/
theorem claim_C6_idempotence :
    (∀ (stem : List Char → List Char) (sw : List (List Char))
      (x : List Char),
      BMT.wsTokens (BMT.sanitize04 stem sw true false
        (BMT.sanitize04 stem sw true false x)) =
        BMT.wsTokens (BMT.sanitize04 stem sw true false x)) ∧
    (∀ (stem : List Char → List Char) (sw : List (List Char))
      (x : List Char),
      BMT.wsTokens (BMT.sanitize04 stem sw false false
        (BMT.sanitize04 stem sw false false x)) =
        BMT.wsTokens (BMT.sanitize04 stem sw false false x)) ∧
    (∀ (sw : List (List Char)) (x : List Char),
      BMT.wsTokens (BMT.sanitize03 sw false (BMT.sanitize03 sw false x)) =
        BMT.wsTokens (BMT.sanitize03 sw false x)) ∧
    (∀ (sw : List (List Char)) (x : List Char), BMT.wsLimited x →
      BMT.wsTokens (BMT.sanitize03 sw true (BMT.sanitize03 sw true x)) =
        BMT.wsTokens (BMT.sanitize03 sw true x)) :=
  ⟨san04_rs_idem, san04_nors_idem, san03_nors_idem,
    fun sw x hx => san03_rs_idem sw hx⟩

/-- Claim C6, witness: the idempotence theorem instantiated at the
`Trabalho_03` stopword-removing sanitizer on the space-only input
`"the cat sat"`. -/
theorem claim_C6_idempotence_witness :
    BMT.wsTokens (BMT.sanitize03 [("THE").toList] true
      (BMT.sanitize03 [("THE").toList] true ("the cat sat").toList)) =
      BMT.wsTokens (BMT.sanitize03 [("THE").toList] true
        ("the cat sat").toList) :=
  claim_C6_idempotence.2.2.2 [("THE").toList] ("the cat sat").toList
    (by rw [BMT.wsLimited]; decide)

/-- Claim C6, counterexample: the `Trabalho_03` stopword-removing
sanitizer is not idempotent on a tab-carrying input — `"a.\tbc"`
sanitizes to `"BC"` (the tab survives inside a token of length 3, then is
stripped), but a second pass drops `BC` as shorter than 3 characters,
changing the token sequence from `["BC"]` to `[]`. -/
theorem claim_C6_counterexample :
    BMT.wsTokens (BMT.sanitize03 [] true
      (BMT.sanitize03 [] true ("a.\tbc").toList)) ≠
      BMT.wsTokens (BMT.sanitize03 [] true ("a.\tbc").toList) := by
  have h1 : BMT.sanitize03 [] true ("a.\tbc").toList = ("BC").toList := by
    simp [BMT.sanitize03, BMT.baseClean, BMT.collapseWs, BMT.pyIsWs,
      BMT.punctToSpace, BMT.unidecodeStr, BMT.accentFold, BMT.nlToSpace,
      BMT.pyUpper, BMT.pyStrip, BMT.splitSpace, BMT.dropStopwords,
      BMT.pyIsDigitTok, BMT.joinSpace, BMT.isPunct04, BMT.isPunct03,
      BMT.squote, BMT.accentTable]
  have h2 : BMT.sanitize03 [] true ("BC").toList = [] := by
    simp [BMT.sanitize03, BMT.baseClean, BMT.collapseWs, BMT.pyIsWs,
      BMT.punctToSpace, BMT.unidecodeStr, BMT.accentFold, BMT.nlToSpace,
      BMT.pyUpper, BMT.pyStrip, BMT.splitSpace, BMT.dropStopwords,
      BMT.pyIsDigitTok, BMT.joinSpace, BMT.isPunct04, BMT.isPunct03,
      BMT.squote, BMT.accentTable]
  have h3 : BMT.wsTokens ([] : List Char) = [] := by
    simp [BMT.wsTokens, BMT.splitWs, BMT.splitP]
  have h4 : BMT.wsTokens (("BC").toList) = [("BC").toList] := by
    simp [BMT.wsTokens, BMT.splitWs, BMT.splitP, BMT.pyIsWs]
  rw [h1, h2, h3, h4]
  decide

end NormalizeClaims
